import Mathlib

/-!
# Lowering of gox markup to vecty calls (`printer/goxexport.go`)

A shallow embedding of the lowering pass `goxToVecty` and of its helpers
`newSelectorExpr`, `newCallExpr`, `newComponent`, `mapProps` and
`newEventListener`, together with the two lookup tables `eventMap` and
`attrMap`.

Conventions of the embedding.

* A Go `string` is a Lean `String`; its bytes are the UTF-8 encoding
  (`go.bytes`), so `s[0]` is the first byte of that encoding and `len(s)` is
  the number of bytes.
* A value of interface type `ast.Expr` is an `ast.Expr`; the nil interface is
  the constructor `ast.Expr.Nil`.  A pointer `*ast.Ident` that may be nil is an
  `Option ast.Ident`.
* A run-time panic (index out of range, failed type assertion, nil
  dereference) is the result `none`.
* The functions that write through pointers of their input (`attr.Rhs = ...`,
  `t.Args = append(...)`) return the input as it is left behind next to their
  result.
-/

/-! ## Go strings -/

namespace go

/-- The bytes of a Go string: the UTF-8 encoding of its characters. -/
def bytes (s : String) : List Nat :=
  s.data.flatMap (fun c => (String.utf8EncodeChar c).map UInt8.toNat)

/-- Go's builtin `len` on a string: the number of bytes. -/
def len (s : String) : Nat := (bytes s).length

/-- Go's `s[i]` on a string: the byte at index `i`; `none` is the
index-out-of-range panic. -/
def index (s : String) (i : Nat) : Option Nat := (bytes s)[i]?

end go

/-! ## The parts of Go's standard library the pass calls -/

namespace unicode

/-- Go's `unicode.IsUpper` on the Latin-1 range `r ≤ 0xFF`, where it reads the
`properties` table: the upper-case letters are `A`..`Z`, `À`..`Ö` and
`Ø`..`Þ`.  The pass only calls it on `rune(b)` for a byte `b`, so no rune
above `0xFF` reaches it; on such a rune this model answers `false`. -/
def IsUpper (r : Nat) : Bool :=
  (0x41 ≤ r && r ≤ 0x5A) || (0xC0 ≤ r && r ≤ 0xD6) || (0xD8 ≤ r && r ≤ 0xDE)

/-- Go's `unicode.IsSpace`: the characters with Unicode's White_Space
property. -/
def IsSpace (r : Nat) : Bool :=
  r = 0x09 || r = 0x0A || r = 0x0B || r = 0x0C || r = 0x0D || r = 0x20 ||
  r = 0x85 || r = 0xA0 || r = 0x1680 || (0x2000 ≤ r && r ≤ 0x200A) ||
  r = 0x2028 || r = 0x2029 || r = 0x202F || r = 0x205F || r = 0x3000

end unicode

namespace strings

/-- Go's `strings.TrimSpace`: the string without its leading and trailing
white space. -/
def TrimSpace (s : String) : String :=
  String.mk
    (((s.data.dropWhile (fun c => unicode.IsSpace c.toNat)).reverse.dropWhile
      (fun c => unicode.IsSpace c.toNat)).reverse)

end strings

namespace strconv

/-- Go's `strconv.IsPrint`.  The Latin-1 range is decided by the function's
own fast path; above `0xFF` Go consults the tables `isPrint16`, `isNotPrint16`,
`isPrint32` and `isNotPrint32`, whose verdict is the parameter `wide`. -/
def IsPrint (wide : Nat → Bool) (r : Nat) : Bool :=
  if r ≤ 0xFF then
    if 0x20 ≤ r && r ≤ 0x7E then true
    else if 0xA1 ≤ r && r ≤ 0xFF then r != 0xAD
    else false
  else wide r

/-- The digit table `lowerhex = "0123456789abcdef"` of `strconv`. -/
def lowerhex (n : Nat) : Char :=
  "0123456789abcdef".data.getD n '0'

/-- Go's `appendEscapedRune` as `strconv.Quote` calls it (quote character
`"`, neither ASCII-only nor graphic-only): the text one character of the
string contributes to the literal. -/
def escapedRune (wide : Nat → Bool) (c : Char) : List Char :=
  let r := c.toNat
  if r = 0x22 ∨ r = 0x5C then ['\\', c]
  else if IsPrint wide r then [c]
  else if r = 0x07 then ['\\', 'a']
  else if r = 0x08 then ['\\', 'b']
  else if r = 0x0C then ['\\', 'f']
  else if r = 0x0A then ['\\', 'n']
  else if r = 0x0D then ['\\', 'r']
  else if r = 0x09 then ['\\', 't']
  else if r = 0x0B then ['\\', 'v']
  else if r < 0x20 ∨ r = 0x7F then
    ['\\', 'x', lowerhex (r / 16), lowerhex (r % 16)]
  else if r < 0x10000 then
    ['\\', 'u', lowerhex (r / 4096 % 16), lowerhex (r / 256 % 16),
      lowerhex (r / 16 % 16), lowerhex (r % 16)]
  else
    ['\\', 'U', lowerhex (r / 268435456 % 16), lowerhex (r / 16777216 % 16),
      lowerhex (r / 1048576 % 16), lowerhex (r / 65536 % 16),
      lowerhex (r / 4096 % 16), lowerhex (r / 256 % 16),
      lowerhex (r / 16 % 16), lowerhex (r % 16)]

/-- Go's `strconv.Quote`: a double-quoted Go string literal for `s`. -/
def Quote (wide : Nat → Bool) (s : String) : String :=
  String.mk ('"' :: (s.data.flatMap (escapedRune wide) ++ ['"']))

/-- Go's `unhex`: the value of a hexadecimal digit. -/
def unhex (c : Char) : Option Nat :=
  let r := c.toNat
  if 0x30 ≤ r ∧ r ≤ 0x39 then some (r - 0x30)
  else if 0x61 ≤ r ∧ r ≤ 0x66 then some (r - 0x61 + 10)
  else if 0x41 ≤ r ∧ r ≤ 0x46 then some (r - 0x41 + 10)
  else none

/-- The loop `v = v<<4 | x` of `UnquoteChar` over `n` hexadecimal digits. -/
def hexDigits : Nat → List Char → Nat → Option (Nat × List Char)
  | 0, s, v => some (v, s)
  | _ + 1, [], _ => none
  | n + 1, c :: s, v =>
    match unhex c with
    | none => none
    | some x => hexDigits n s (v * 16 + x)

/-- The loop `v = (v << 3) | x` of `UnquoteChar` over `n` octal digits. -/
def octDigits : Nat → List Char → Nat → Option (Nat × List Char)
  | 0, s, v => some (v, s)
  | _ + 1, [], _ => none
  | n + 1, c :: s, v =>
    if 0x30 ≤ c.toNat ∧ c.toNat ≤ 0x37 then octDigits n s (v * 8 + (c.toNat - 0x30))
    else none

/-- Go's `strconv.UnquoteChar` with the quote character `"`: the first
character of the literal text `s`, decoded, and the rest of the text.  An
escape `\x` or an octal escape denotes a byte; a byte from `0x80` on is outside
this model of strings and gives `none`, as a syntax error does. -/
def UnquoteChar (s : List Char) : Option (Char × List Char) :=
  match s with
  | [] => none
  | c :: s1 =>
    if c.toNat = 0x22 then none
    else if c.toNat ≠ 0x5C then some (c, s1)
    else
      match s1 with
      | [] => none
      | e :: s2 =>
        let k := e.toNat
        if k = 0x61 then some (Char.ofNat 0x07, s2)
        else if k = 0x62 then some (Char.ofNat 0x08, s2)
        else if k = 0x66 then some (Char.ofNat 0x0C, s2)
        else if k = 0x6E then some (Char.ofNat 0x0A, s2)
        else if k = 0x72 then some (Char.ofNat 0x0D, s2)
        else if k = 0x74 then some (Char.ofNat 0x09, s2)
        else if k = 0x76 then some (Char.ofNat 0x0B, s2)
        else if k = 0x78 then
          match hexDigits 2 s2 0 with
          | none => none
          | some (v, tail) => if v < 0x80 then some (Char.ofNat v, tail) else none
        else if k = 0x75 then
          match hexDigits 4 s2 0 with
          | none => none
          | some (v, tail) =>
            if v < 0xD800 ∨ (0xDFFF < v ∧ v ≤ 0x10FFFF) then some (Char.ofNat v, tail)
            else none
        else if k = 0x55 then
          match hexDigits 8 s2 0 with
          | none => none
          | some (v, tail) =>
            if v < 0xD800 ∨ (0xDFFF < v ∧ v ≤ 0x10FFFF) then some (Char.ofNat v, tail)
            else none
        else if 0x30 ≤ k ∧ k ≤ 0x37 then
          match octDigits 2 s2 (k - 0x30) with
          | none => none
          | some (v, tail) => if v < 0x80 then some (Char.ofNat v, tail) else none
        else if k = 0x5C then some (e, s2)
        else if k = 0x22 then some (e, s2)
        else none

/-- The loop of `strconv.Unquote` over the text after the opening quote: it
decodes one character per turn into `buf` until the closing quote, which has
to be the last character.  `fuel` bounds the number of turns. -/
def unquoteLoop : Nat → List Char → List Char → Option (List Char)
  | 0, _, _ => none
  | fuel + 1, s, buf =>
    match s with
    | [] => none
    | c :: rest =>
      if c.toNat = 0x22 then
        (if rest.isEmpty then some buf else none)
      else if c.toNat = 0x0A then none
      else
        match UnquoteChar s with
        | none => none
        | some (r, rem) => unquoteLoop fuel rem (buf ++ [r])

/-- Go's `strconv.Unquote` on a double-quoted literal (the form `Quote`
writes): the string the literal denotes, `none` for a syntax error.  Every turn
of the loop consumes a character, so the length of the text is fuel enough. -/
def Unquote (s : String) : Option String :=
  match s.data with
  | [] => none
  | q :: body =>
    if q.toNat = 0x22 then (unquoteLoop (body.length + 1) body []).map String.mk
    else none

end strconv

/-! ## Tokens and syntax trees -/

namespace token

/-- Type `token.Pos`, an integer offset. -/
abbrev Pos := Nat

/-- The zero value `token.NoPos`: no source position. -/
def NoPos : Pos := 0

/-- Modelled from the spec: the token kinds of package `token` are declared
outside the translated file; the pass names `STRING` and `AND`, every other
kind is `other` with its number. -/
inductive Token where
  | STRING
  | AND
  | other (code : Nat)
deriving DecidableEq, Repr

end token

namespace ast

/-- Modelled from the spec: node `ast.Ident`, declared outside the translated
file.  The pass reads `Name`; `NamePos` is the position `ast.NewIdent` leaves
at `token.NoPos`. -/
structure Ident where
  NamePos : token.Pos
  Name : String
deriving DecidableEq, Repr

/-- Modelled from the spec: the expression nodes of package `ast`, declared
outside the translated file.  The constructors are the node types the pass
builds or inspects, with the fields it sets or reads; `Nil` is the nil
interface value and `Other` stands for a node of any other type, which the
pass only passes along. -/
inductive Expr where
  | Nil
  | Ident (id : ast.Ident)
  | BasicLit (ValuePos : token.Pos) (Kind : token.Token) (Value : String)
  | SelectorExpr (X : Expr) (Sel : ast.Ident)
  | CallExpr (Fun : Expr) (Lparen : token.Pos) (Args : List Expr)
      (Ellipsis : token.Pos) (Rparen : token.Pos)
  | UnaryExpr (OpPos : token.Pos) (Op : token.Token) (X : Expr)
  | CompositeLit (Type_ : Expr) (Lbrace : token.Pos) (Elts : List Expr)
      (Rbrace : token.Pos)
  | KeyValueExpr (Key : Expr) (Colon : token.Pos) (Value : Expr)
  | BareWordsExpr (Value : String)
  | GoExpr (X : Expr)
  | Other (kind : Nat)
deriving Repr

/-- Modelled from the spec: node `ast.GoxAttrStmt`, one attribute of a tag.
`Lhs` is a `*ast.Ident` (nil is `none`), `Rhs` an `ast.Expr` (absent is
`Expr.Nil`). -/
structure GoxAttrStmt where
  Lhs : Option Ident
  Rhs : Expr
deriving Repr

/-- Modelled from the spec: node `ast.GoxExpr`, one tag with its attributes
and children. -/
structure GoxExpr where
  TagName : Expr
  Attrs : List GoxAttrStmt
  X : List Expr
deriving Repr

/-- Modelled from the spec: `ast.NewIdent`, declared outside the translated
file: a new identifier without position. -/
def NewIdent (name : String) : Ident := ⟨token.NoPos, name⟩

end ast

namespace printer

open ast

/-! ## The lookup tables -/

/-- Table `eventMap`: html-style handler names to js event names. -/
def eventMap : List (String × String) :=
  [ ("onAbort", "abort"),
    ("onCancel", "cancel"),
    ("onCanPlay", "canplay"),
    ("onCanPlaythrough", "canplaythrough"),
    ("onChange", "change"),
    ("onClick", "click"),
    ("onCueChange", "cuechange"),
    ("onDblClick", "dblclick"),
    ("onDurationChange", "durationchange"),
    ("onEmptied", "emptied"),
    ("onEnded", "ended"),
    ("onInput", "input"),
    ("onInvalid", "invalid"),
    ("onKeyDown", "keydown"),
    ("onKeyPress", "keypress"),
    ("onKeyUp", "keyup"),
    ("onLoadedData", "loadeddata"),
    ("onLoadedMetadata", "loadedmetadata"),
    ("onLoadStart", "loadstart"),
    ("onMouseDown", "mousedown"),
    ("onMouseEnter", "mouseenter"),
    ("onMouseleave", "mouseleave"),
    ("onMouseMove", "mousemove"),
    ("onMouseOut", "mouseout"),
    ("onMouseOver", "mouseover"),
    ("onMouseUp", "mouseup"),
    ("onMouseWheel", "mousewheel"),
    ("onPause", "pause"),
    ("onPlay", "play"),
    ("onPlaying", "playing"),
    ("onProgress", "progress"),
    ("onRateChange", "ratechange"),
    ("onReset", "reset"),
    ("onSeeked", "seeked"),
    ("onSeeking", "seeking"),
    ("onSelect", "select"),
    ("onShow", "show"),
    ("onStalled", "stalled"),
    ("onSubmit", "submit"),
    ("onSuspend", "suspend"),
    ("onTimeUpdate", "timeupdate"),
    ("onToggle", "toggle"),
    ("onVolumeChange", "volumechange"),
    ("onWaiting", "waiting") ]

/-- Table `attrMap`: attribute names to vecty property names. -/
def attrMap : List (String × String) :=
  [ ("autofocus", "autofocus"),
    ("checked", "checked"),
    ("class", "class"),
    ("for", "htmlFor"),
    ("href", "href"),
    ("id", "id"),
    ("placeholder", "placeholder"),
    ("src", "src"),
    ("type", "type"),
    ("value", "value") ]

/-- Go's two-result map read `v, ok := m[k]`: `some v` when `k` is a key. -/
def mapGet (m : List (String × String)) (k : String) : Option String :=
  m.lookup k

/-- Go's one-result map read `m[k]`: the zero value `""` when `k` is no key. -/
def mapIndex (m : List (String × String)) (k : String) : String :=
  (m.lookup k).getD ""

/-! ## The expression constructors -/

/-- Function `newSelectorExpr`: the selector `x.sel`. -/
def newSelectorExpr (x sel : String) : Expr :=
  Expr.SelectorExpr (Expr.Ident (NewIdent x)) (NewIdent sel)

/-- Function `newCallExpr`: the call `fun(args...)` without positions. -/
def newCallExpr (fn : Expr) (args : List Expr) : Expr :=
  Expr.CallExpr fn token.NoPos args token.NoPos token.NoPos

/-- Function `newEventListener`: `&genname.EventListener{Name: ..., Listener:
...}`; `none` is the nil dereference of `goxAttr.Lhs`. -/
def newEventListener (wide : Nat → Bool) (genname : String)
    (goxAttr : GoxAttrStmt) : Option Expr :=
  match goxAttr.Lhs with
  | none => none
  | some lhs =>
    some (Expr.UnaryExpr token.NoPos token.Token.AND
      (Expr.CompositeLit (newSelectorExpr genname "EventListener") token.NoPos
        [ Expr.KeyValueExpr (Expr.Ident (NewIdent "Name")) token.NoPos
            (Expr.BasicLit token.NoPos token.Token.STRING
              (strconv.Quote wide (mapIndex eventMap lhs.Name))),
          Expr.KeyValueExpr (Expr.Ident (NewIdent "Listener")) token.NoPos
            goxAttr.Rhs ]
        token.NoPos))

/-- The assignment `attr.Rhs = ast.NewIdent("true")` under `attr.Rhs == nil`,
the first statement of both attribute loops. -/
def defaultRhs (attr : GoxAttrStmt) : GoxAttrStmt :=
  match attr.Rhs with
  | Expr.Nil => { attr with Rhs := Expr.Ident (NewIdent "true") }
  | _ => attr

/-- The body of the loop of `mapProps` for one attribute: the expression it
appends to `mapped` and the attribute as it leaves it. -/
def mapPropsBody (wide : Nat → Bool) (genname : String) (attr : GoxAttrStmt) :
    Option (Expr × GoxAttrStmt) :=
  let attr := defaultRhs attr
  match attr.Lhs with
  | none => none
  | some lhs =>
    match mapGet eventMap lhs.Name with
    | some _ =>
      match newEventListener wide genname attr with
      | none => none
      | some expr => some (expr, attr)
    | none =>
      match mapGet attrMap lhs.Name with
      | some mappedName =>
        some (newCallExpr (newSelectorExpr genname "Property")
          [ Expr.BasicLit token.NoPos token.Token.STRING
              (strconv.Quote wide mappedName),
            attr.Rhs ], attr)
      | none =>
        some (newCallExpr (newSelectorExpr genname "Attribute")
          [ Expr.BasicLit token.NoPos token.Token.STRING
              (strconv.Quote wide lhs.Name),
            attr.Rhs ], attr)

/-- One turn of the loop of `mapProps`: `mapped = append(mapped, expr)`, next
to the attributes the loop has left behind so far. -/
def mapPropsStep (wide : Nat → Bool) (genname : String)
    (st : List Expr × List GoxAttrStmt) (attr : GoxAttrStmt) :
    Option (List Expr × List GoxAttrStmt) :=
  match mapPropsBody wide genname attr with
  | none => none
  | some (expr, attr1) => some (st.1 ++ [expr], st.2 ++ [attr1])

/-- Function `mapProps`: the loop over `goxAttrs`, which appends one
expression per attribute to `mapped`.  The result is `mapped` and the
attribute list as the loop leaves it. -/
def mapProps (wide : Nat → Bool) (genname : String)
    (goxAttrs : List GoxAttrStmt) : Option (List Expr × List GoxAttrStmt) :=
  goxAttrs.foldlM (mapPropsStep wide genname) ([], [])

/-- The literal `""` that `newComponent` puts before the children. -/
def emptyStringLit : Expr :=
  Expr.BasicLit token.NoPos token.Token.STRING "\"\""

/-- The call `genname.Text("", gox.X...)` that `newComponent` builds. -/
def bodyText (genname : String) (X : List Expr) : Expr :=
  newCallExpr (newSelectorExpr genname "Text") ([emptyStringLit] ++ X)

/-- The body of the first loop of `newComponent` at index `i`: it defaults the
attribute's value and stores a key-value pair in `args[i]`. -/
def newComponentBody (st : List Expr × List GoxAttrStmt)
    (ia : Nat × GoxAttrStmt) : Option (List Expr × List GoxAttrStmt) :=
  let attr := defaultRhs ia.2
  match attr.Lhs with
  | none => none
  | some lhs =>
    some (st.1.set ia.1
        (Expr.KeyValueExpr (Expr.Ident (NewIdent lhs.Name)) token.NoPos attr.Rhs),
      st.2.set ia.1 attr)

/-- Function `newComponent`.  The result is the expression and the node as the
function leaves it. -/
def newComponent (genname : String) (gox : GoxExpr) : Option (Expr × GoxExpr) :=
  match gox.Attrs.enum.foldlM newComponentBody
      (List.replicate gox.Attrs.length Expr.Nil, gox.Attrs) with
  | none => none
  | some (args, attrs) =>
    let args :=
      if gox.X.length ≠ 0 then
        args ++ [Expr.KeyValueExpr (Expr.Ident (NewIdent "Body")) token.NoPos
          (bodyText genname gox.X)]
      else args
    match gox.TagName with
    | Expr.CallExpr fn lparen targs ellipsis rparen =>
      let t :=
        if gox.X.length ≠ 0 then
          Expr.CallExpr fn lparen (targs ++ [bodyText genname gox.X]) ellipsis rparen
        else Expr.CallExpr fn lparen targs ellipsis rparen
      some (t, { TagName := t, Attrs := attrs, X := gox.X })
    | _ =>
      some (newCallExpr (newSelectorExpr genname "NewComponent")
          [ Expr.UnaryExpr token.NoPos token.Token.AND
              (Expr.CompositeLit gox.TagName token.NoPos args token.NoPos) ],
        { gox with Attrs := attrs })

/-- The test `isComponent` at the head of `goxToVecty`; `none` is the panic of
`t.Name[0]` on an empty name. -/
def isComponent (gox : GoxExpr) : Option Bool :=
  match gox.TagName with
  | Expr.Ident t =>
    match go.index t.Name 0 with
    | none => none
    | some b => some (unicode.IsUpper b)
  | _ => some true

/-- The body of the loop over `gox.X` in `goxToVecty`: what one child does to
`args`. -/
def contentsBody (genname : String) (args : List Expr) (expr : Expr) : List Expr :=
  match expr with
  | Expr.BareWordsExpr value =>
    if go.len (strings.TrimSpace value) = 0 then args
    else args ++ [newCallExpr (newSelectorExpr genname "Text") [expr]]
  | Expr.GoExpr _ =>
    args ++ [newCallExpr (newSelectorExpr genname "Value") [expr]]
  | _ => args ++ [expr]

/-- Function `goxToVecty`.  The result is the expression and the node as the
function leaves it; `none` is a panic. -/
def goxToVecty (wide : Nat → Bool) (genname : String) (gox : GoxExpr) :
    Option (Expr × GoxExpr) :=
  match isComponent gox with
  | none => none
  | some true => newComponent genname gox
  | some false =>
    match gox.TagName with
    | Expr.Ident t =>
      let args := [Expr.BasicLit token.NoPos token.Token.STRING
        (strconv.Quote wide t.Name)]
      let withMarkup : Option (List Expr × List GoxAttrStmt) :=
        if gox.Attrs.length > 0 then
          match mapProps wide genname gox.Attrs with
          | none => none
          | some (mapped, attrs) =>
            some (args ++ [newCallExpr (newSelectorExpr genname "Markup") mapped],
              attrs)
        else some (args, gox.Attrs)
      match withMarkup with
      | none => none
      | some (args, attrs) =>
        some (newCallExpr (newSelectorExpr genname "Tag")
            (gox.X.foldl (contentsBody genname) args),
          { gox with Attrs := attrs })
    | _ => none

/-! ## The claims' own vocabulary -/

/-- The value of an attribute as the loops use it: the attribute's own `Rhs`,
or the identifier `true` when the attribute has none. -/
def rhsOrTrue (rhs : Expr) : Expr :=
  match rhs with
  | Expr.Nil => Expr.Ident (NewIdent "true")
  | e => e

/-- What one child contributes to the arguments of `genname.Tag`, in the
words of the specification: nothing for bare words that are empty after
trimming, `genname.Text(c)` for other bare words, `genname.Value(e)` for an
embedded Go expression, the child itself for any other shape. -/
def childArg (genname : String) (child : Expr) : Option Expr :=
  match child with
  | Expr.BareWordsExpr value =>
    if strings.TrimSpace value = "" then none
    else some (newCallExpr (newSelectorExpr genname "Text") [child])
  | Expr.GoExpr _ => some (newCallExpr (newSelectorExpr genname "Value") [child])
  | _ => some child

/-- A bare-words child whose text is white space only. -/
def isBlankText (child : Expr) : Bool :=
  match child with
  | Expr.BareWordsExpr value => decide (strings.TrimSpace value = "")
  | _ => false

/-- The characters `A`..`Z`. -/
def asciiUpper (c : Char) : Bool := 0x41 ≤ c.toNat && c.toNat ≤ 0x5A

/-- The name of an attribute, `attr.Lhs.Name`; the empty string stands in
where `Lhs` is nil, which the loops never get past. -/
def attrName (attr : GoxAttrStmt) : String :=
  match attr.Lhs with
  | some lhs => lhs.Name
  | none => ""

/-- The expression `mapProps` emits for one attribute: the first component of
what the loop body returns (`Expr.Nil` where the body panics). -/
def propExpr (wide : Nat → Bool) (genname : String) (attr : GoxAttrStmt) : Expr :=
  match mapPropsBody wide genname attr with
  | some (expr, _) => expr
  | none => Expr.Nil

/-- The field `newComponent` builds for one attribute: `name: value`, the
value defaulted to `true`. -/
def fieldExpr (attr : GoxAttrStmt) : Expr :=
  Expr.KeyValueExpr (Expr.Ident (NewIdent (attrName attr))) token.NoPos
    (rhsOrTrue attr.Rhs)

/-- The well-formed input of the specification, as far as the pass can fail on
it: every attribute has an `Lhs`, and an identifier tag has a name that is not
empty. -/
def WellFormed (gox : GoxExpr) : Prop :=
  (∀ a ∈ gox.Attrs, a.Lhs ≠ none) ∧ (∀ t, gox.TagName = Expr.Ident t → t.Name ≠ "")

/-- The names of the runtime API the pass refers to. -/
def apiNames : List String :=
  ["Tag", "Markup", "Text", "Value", "Property", "Attribute", "EventListener",
    "NewComponent"]

/-- The position fields of one node itself, those of its `Sel` identifier
included. -/
def ownPositions (e : Expr) : List token.Pos :=
  match e with
  | Expr.Nil => []
  | Expr.Ident id => [id.NamePos]
  | Expr.BasicLit valuePos _ _ => [valuePos]
  | Expr.SelectorExpr _ sel => [sel.NamePos]
  | Expr.CallExpr _ lparen _ ellipsis rparen => [lparen, ellipsis, rparen]
  | Expr.UnaryExpr opPos _ _ => [opPos]
  | Expr.CompositeLit _ lbrace _ rbrace => [lbrace, rbrace]
  | Expr.KeyValueExpr _ colon _ => [colon]
  | Expr.BareWordsExpr _ => []
  | Expr.GoExpr _ => []
  | Expr.Other _ => []

mutual
/-- Every node of an expression tree, the root first. -/
def nodes : Expr → List Expr
  | Expr.Nil => [Expr.Nil]
  | Expr.Ident id => [Expr.Ident id]
  | Expr.BasicLit valuePos kind value => [Expr.BasicLit valuePos kind value]
  | Expr.SelectorExpr x sel => Expr.SelectorExpr x sel :: nodes x
  | Expr.CallExpr fn lparen args ellipsis rparen =>
    Expr.CallExpr fn lparen args ellipsis rparen :: (nodes fn ++ nodesList args)
  | Expr.UnaryExpr opPos op x => Expr.UnaryExpr opPos op x :: nodes x
  | Expr.CompositeLit ty lbrace elts rbrace =>
    Expr.CompositeLit ty lbrace elts rbrace :: (nodes ty ++ nodesList elts)
  | Expr.KeyValueExpr key colon value =>
    Expr.KeyValueExpr key colon value :: (nodes key ++ nodes value)
  | Expr.BareWordsExpr value => [Expr.BareWordsExpr value]
  | Expr.GoExpr x => Expr.GoExpr x :: nodes x
  | Expr.Other kind => [Expr.Other kind]
/-- Every node of the trees of a list. -/
def nodesList : List Expr → List Expr
  | [] => []
  | e :: es => nodes e ++ nodesList es
end

/-- A node as the pass builds it: every position field of its own is
`token.NoPos`, and if it is a selector expression it is `genname.name` for a
name of the runtime API. -/
def Synthesized (genname : String) (n : Expr) : Prop :=
  (∀ p ∈ ownPositions n, p = token.NoPos) ∧
  (∀ x sel, n = Expr.SelectorExpr x sel →
    x = Expr.Ident (NewIdent genname) ∧ ∃ name ∈ apiNames, sel = NewIdent name)

/-- A node of the input: of the tag, of a child, or of the value of an
attribute. -/
def FromInput (gox : GoxExpr) (n : Expr) : Prop :=
  n ∈ nodes gox.TagName ∨ n ∈ nodesList gox.X ∨
    n ∈ nodesList (gox.Attrs.map (fun a => a.Rhs))

/-- The qualifier of a selector under renaming: an identifier named `g1`
becomes one named `g2`. -/
def renameIdent (g1 g2 : String) (x : Expr) : Expr :=
  match x with
  | Expr.Ident id => if id.Name = g1 then Expr.Ident ⟨id.NamePos, g2⟩ else x
  | _ => x

mutual
/-- An expression with every selector qualifier `g1` replaced by `g2`. -/
def requalify (g1 g2 : String) : Expr → Expr
  | Expr.Nil => Expr.Nil
  | Expr.Ident id => Expr.Ident id
  | Expr.BasicLit valuePos kind value => Expr.BasicLit valuePos kind value
  | Expr.SelectorExpr x sel =>
    Expr.SelectorExpr (renameIdent g1 g2 (requalify g1 g2 x)) sel
  | Expr.CallExpr fn lparen args ellipsis rparen =>
    Expr.CallExpr (requalify g1 g2 fn) lparen (requalifyList g1 g2 args) ellipsis rparen
  | Expr.UnaryExpr opPos op x => Expr.UnaryExpr opPos op (requalify g1 g2 x)
  | Expr.CompositeLit ty lbrace elts rbrace =>
    Expr.CompositeLit (requalify g1 g2 ty) lbrace (requalifyList g1 g2 elts) rbrace
  | Expr.KeyValueExpr key colon value =>
    Expr.KeyValueExpr (requalify g1 g2 key) colon (requalify g1 g2 value)
  | Expr.BareWordsExpr value => Expr.BareWordsExpr value
  | Expr.GoExpr x => Expr.GoExpr (requalify g1 g2 x)
  | Expr.Other kind => Expr.Other kind
/-- The expressions of a list, each requalified. -/
def requalifyList (g1 g2 : String) : List Expr → List Expr
  | [] => []
  | e :: es => requalify g1 g2 e :: requalifyList g1 g2 es
end

/-- The body of the loop of `mapProps` with the two tables consulted in the
other order: `attrMap` first, then `eventMap`. -/
def mapPropsBodySwapped (wide : Nat → Bool) (genname : String)
    (attr : GoxAttrStmt) : Option (Expr × GoxAttrStmt) :=
  let attr := defaultRhs attr
  match attr.Lhs with
  | none => none
  | some lhs =>
    match mapGet attrMap lhs.Name with
    | some mappedName =>
      some (newCallExpr (newSelectorExpr genname "Property")
        [ Expr.BasicLit token.NoPos token.Token.STRING
            (strconv.Quote wide mappedName),
          attr.Rhs ], attr)
    | none =>
      match mapGet eventMap lhs.Name with
      | some _ =>
        match newEventListener wide genname attr with
        | none => none
        | some expr => some (expr, attr)
      | none =>
        some (newCallExpr (newSelectorExpr genname "Attribute")
          [ Expr.BasicLit token.NoPos token.Token.STRING
              (strconv.Quote wide lhs.Name),
            attr.Rhs ], attr)

/-- One turn of the loop of `mapProps` with the two tables consulted in the other
order. -/
def mapPropsStepSwapped (wide : Nat → Bool) (genname : String)
    (st : List Expr × List GoxAttrStmt) (attr : GoxAttrStmt) :
    Option (List Expr × List GoxAttrStmt) :=
  match mapPropsBodySwapped wide genname attr with
  | none => none
  | some (expr, attr1) => some (st.1 ++ [expr], st.2 ++ [attr1])

/-- Function `mapProps` with the two tables consulted in the other order. -/
def mapPropsSwapped (wide : Nat → Bool) (genname : String)
    (goxAttrs : List GoxAttrStmt) : Option (List Expr × List GoxAttrStmt) :=
  goxAttrs.foldlM (mapPropsStepSwapped wide genname) ([], [])

end printer

/-! ## `strconv.Unquote` undoes `strconv.Quote` -/

namespace strconv

theorem unhex_lowerhex (n : Nat) (h : n < 16) : unhex (lowerhex n) = some n := by
  interval_cases n <;> decide

theorem hexDigits_two (a b : Nat) (rest : List Char) (ha : a < 16) (hb : b < 16) :
    hexDigits 2 (lowerhex a :: lowerhex b :: rest) 0 = some (a * 16 + b, rest) := by
  simp [hexDigits, unhex_lowerhex, ha, hb]

theorem hexDigits_four (a b c d : Nat) (rest : List Char) (ha : a < 16) (hb : b < 16)
    (hc : c < 16) (hd : d < 16) :
    hexDigits 4 (lowerhex a :: lowerhex b :: lowerhex c :: lowerhex d :: rest) 0
      = some (4096 * a + 256 * b + 16 * c + d, rest) := by
  simp [hexDigits, unhex_lowerhex, ha, hb, hc, hd]
  omega

theorem hexDigits_eight (a b c d e f g h : Nat) (rest : List Char) (ha : a < 16)
    (hb : b < 16) (hc : c < 16) (hd : d < 16) (he : e < 16) (hf : f < 16)
    (hg : g < 16) (hh : h < 16) :
    hexDigits 8 (lowerhex a :: lowerhex b :: lowerhex c :: lowerhex d :: lowerhex e
        :: lowerhex f :: lowerhex g :: lowerhex h :: rest) 0
      = some (((((((a * 16 + b) * 16 + c) * 16 + d) * 16 + e) * 16 + f) * 16 + g) * 16
          + h, rest) := by
  simp [hexDigits, unhex_lowerhex, ha, hb, hc, hd, he, hf, hg, hh]

theorem toNat_eq_ofNat (c : Char) (n : Nat) (h : c.toNat = n) : Char.ofNat n = c := by
  rw [← h, Char.ofNat_toNat]

theorem char_valid (c : Char) :
    c.toNat < 0xD800 ∨ (0xDFFF < c.toNat ∧ c.toNat ≤ 0x10FFFF) := by
  have h := c.valid
  have e : c.val.toNat = c.toNat := rfl
  rcases h with h | ⟨h1, h2⟩
  · left
    show c.val.toNat < 0xD800
    exact h
  · right
    constructor
    · show 0xDFFF < c.val.toNat
      exact h1
    · have : c.val.toNat < 0x110000 := h2
      show c.val.toNat ≤ 0x10FFFF
      omega

theorem UnquoteChar_escapedRune (wide : Nat → Bool) (c : Char) (rest : List Char) :
    UnquoteChar (escapedRune wide c ++ rest) = some (c, rest) ∧
    ∃ d ds, escapedRune wide c = d :: ds ∧ d.toNat ≠ 0x22 ∧ d.toNat ≠ 0x0A := by
  have hb : ('\\' : Char).toNat = 0x5C := rfl
  have hv := char_valid c
  unfold escapedRune
  simp only []
  by_cases h1 : c.toNat = 0x22 ∨ c.toNat = 0x5C
  · rw [if_pos h1]
    refine ⟨?_, _, _, rfl, by simp [hb], by simp [hb]⟩
    rcases h1 with h | h <;> simp [UnquoteChar, hb, h]
  rw [if_neg h1]
  by_cases h2 : IsPrint wide c.toNat = true
  · rw [if_pos h2]
    have h22 : c.toNat ≠ 0x22 := fun h => h1 (Or.inl h)
    have h5c : c.toNat ≠ 0x5C := fun h => h1 (Or.inr h)
    have h0a : c.toNat ≠ 0x0A := by
      intro h
      rw [h] at h2
      simp [IsPrint] at h2
    exact ⟨by simp [UnquoteChar, h22, h5c], _, _, rfl, h22, h0a⟩
  rw [if_neg h2]
  by_cases h3 : c.toNat = 0x07
  · rw [if_pos h3]
    refine ⟨?_, _, _, rfl, by simp [hb], by simp [hb]⟩
    simp only [List.cons_append, List.nil_append, UnquoteChar, hb]
    simp
    exact toNat_eq_ofNat c _ h3
  rw [if_neg h3]
  by_cases h4 : c.toNat = 0x08
  · rw [if_pos h4]
    refine ⟨?_, _, _, rfl, by simp [hb], by simp [hb]⟩
    simp only [List.cons_append, List.nil_append, UnquoteChar, hb]
    simp
    exact toNat_eq_ofNat c _ h4
  rw [if_neg h4]
  by_cases h5 : c.toNat = 0x0C
  · rw [if_pos h5]
    refine ⟨?_, _, _, rfl, by simp [hb], by simp [hb]⟩
    simp only [List.cons_append, List.nil_append, UnquoteChar, hb]
    simp
    exact toNat_eq_ofNat c _ h5
  rw [if_neg h5]
  by_cases h6 : c.toNat = 0x0A
  · rw [if_pos h6]
    refine ⟨?_, _, _, rfl, by simp [hb], by simp [hb]⟩
    simp only [List.cons_append, List.nil_append, UnquoteChar, hb]
    simp
    exact toNat_eq_ofNat c _ h6
  rw [if_neg h6]
  by_cases h7 : c.toNat = 0x0D
  · rw [if_pos h7]
    refine ⟨?_, _, _, rfl, by simp [hb], by simp [hb]⟩
    simp only [List.cons_append, List.nil_append, UnquoteChar, hb]
    simp
    exact toNat_eq_ofNat c _ h7
  rw [if_neg h7]
  by_cases h8 : c.toNat = 0x09
  · rw [if_pos h8]
    refine ⟨?_, _, _, rfl, by simp [hb], by simp [hb]⟩
    simp only [List.cons_append, List.nil_append, UnquoteChar, hb]
    simp
    exact toNat_eq_ofNat c _ h8
  rw [if_neg h8]
  by_cases h9 : c.toNat = 0x0B
  · rw [if_pos h9]
    refine ⟨?_, _, _, rfl, by simp [hb], by simp [hb]⟩
    simp only [List.cons_append, List.nil_append, UnquoteChar, hb]
    simp
    exact toNat_eq_ofNat c _ h9
  rw [if_neg h9]
  by_cases h10 : c.toNat < 0x20 ∨ c.toNat = 0x7F
  · rw [if_pos h10]
    refine ⟨?_, _, _, rfl, by simp [hb], by simp [hb]⟩
    have e : c.toNat / 16 * 16 + c.toNat % 16 = c.toNat := by omega
    have hlt : c.toNat < 0x80 := by omega
    simp only [List.cons_append, List.nil_append, UnquoteChar, hb]
    rw [hexDigits_two _ _ _ (by omega) (by omega), e]
    simp [hlt, Char.ofNat_toNat]
  rw [if_neg h10]
  by_cases h11 : c.toNat < 0x10000
  · rw [if_pos h11]
    refine ⟨?_, _, _, rfl, by simp [hb], by simp [hb]⟩
    have e : 4096 * (c.toNat / 4096 % 16) + 256 * (c.toNat / 256 % 16)
        + 16 * (c.toNat / 16 % 16) + c.toNat % 16 = c.toNat := by omega
    simp only [List.cons_append, List.nil_append, UnquoteChar, hb]
    rw [hexDigits_four _ _ _ _ _ (by omega) (by omega) (by omega) (by omega), e]
    simp [hv, Char.ofNat_toNat]
  rw [if_neg h11]
  refine ⟨?_, _, _, rfl, by simp [hb], by simp [hb]⟩
  have e : ((((((c.toNat / 268435456 % 16 * 16 + c.toNat / 16777216 % 16) * 16
      + c.toNat / 1048576 % 16) * 16 + c.toNat / 65536 % 16) * 16
      + c.toNat / 4096 % 16) * 16 + c.toNat / 256 % 16) * 16
      + c.toNat / 16 % 16) * 16 + c.toNat % 16 = c.toNat := by omega
  simp only [List.cons_append, List.nil_append, UnquoteChar, hb]
  rw [hexDigits_eight _ _ _ _ _ _ _ _ _ (by omega) (by omega) (by omega) (by omega)
    (by omega) (by omega) (by omega) (by omega), e]
  simp [hv, Char.ofNat_toNat]

theorem unquoteLoop_quoted (wide : Nat → Bool) (cs : List Char) (fuel : Nat)
    (buf : List Char) (h : cs.length < fuel) :
    unquoteLoop fuel (cs.flatMap (escapedRune wide) ++ ['"']) buf = some (buf ++ cs) := by
  induction cs generalizing fuel buf with
  | nil =>
    cases fuel with
    | zero => simp at h
    | succ n =>
      have hq : ('"' : Char).toNat = 0x22 := rfl
      simp [unquoteLoop, hq]
  | cons c cs ih =>
    cases fuel with
    | zero => simp at h
    | succ n =>
      obtain ⟨hu, d, ds, hd, hd1, hd2⟩ :=
        UnquoteChar_escapedRune wide c (cs.flatMap (escapedRune wide) ++ ['"'])
      have hlen : cs.length < n := by simpa using h
      rw [List.flatMap_cons, List.append_assoc]
      rw [hd] at hu ⊢
      rw [List.cons_append] at hu ⊢
      simp only [unquoteLoop, hd1, hd2, if_false, hu]
      rw [ih n (buf ++ [c]) hlen]
      simp

/-- `strconv.Unquote` undoes `strconv.Quote`. -/
theorem Unquote_Quote (wide : Nat → Bool) (s : String) :
    Unquote (Quote wide s) = some s := by
  have hq : ('"' : Char).toNat = 0x22 := rfl
  have hlen : s.data.length < (s.data.flatMap (escapedRune wide) ++ ['"']).length + 1 := by
    have : s.data.length ≤ (s.data.flatMap (escapedRune wide)).length := by
      induction s.data with
      | nil => simp
      | cons c cs ih =>
        obtain ⟨_, d, ds, hd, _, _⟩ := UnquoteChar_escapedRune wide c []
        simp only [List.flatMap_cons, List.length_append, List.length_cons, hd]
        omega
    simp only [List.length_append, List.length_cons, List.length_nil]
    omega
  simp only [Unquote, Quote, hq, if_true]
  rw [unquoteLoop_quoted wide s.data _ [] hlen]
  simp

theorem Quote_injective (wide : Nat → Bool) (a b : String)
    (h : Quote wide a = Quote wide b) : a = b := by
  have := congrArg Unquote h
  simpa [Unquote_Quote] using this

end strconv

namespace printer

open ast

/-! ## Lemmas on Go strings -/

theorem len_eq_zero_iff (s : String) : go.len s = 0 ↔ s = "" := by
  cases s with
  | mk cs =>
    cases cs with
    | nil => simp [go.len, go.bytes]
    | cons c cs =>
      have hpos := Char.utf8Size_pos c
      have hne : (String.mk (c :: cs)) ≠ "" := by
        intro h
        have := congrArg String.data h
        simp at this
      simp [go.len, go.bytes, String.length_utf8EncodeChar, hne]
      omega

theorem index_zero_ascii (s : String) (c : Char) (h : s.data.head? = some c)
    (hc : c.toNat < 0x80) : go.index s 0 = some c.toNat := by
  cases s with
  | mk cs =>
    cases cs with
    | nil => simp at h
    | cons d ds =>
      simp only [List.head?_cons, Option.some.injEq] at h
      subst h
      have hle : d.val ≤ 127 := by
        show d.val.toNat ≤ 127
        have : d.val.toNat = d.toNat := rfl
        omega
      simp [go.index, go.bytes, String.utf8EncodeChar, hle]
      show d.val.toNat % 256 = d.toNat
      have : d.val.toNat = d.toNat := rfl
      omega

theorem rhsOrTrue_defaultRhs (attr : GoxAttrStmt) :
    defaultRhs attr = { attr with Rhs := rhsOrTrue attr.Rhs } := by
  cases attr with
  | mk lhs rhs => cases rhs <;> rfl

theorem defaultRhs_Lhs (attr : GoxAttrStmt) : (defaultRhs attr).Lhs = attr.Lhs := by
  rw [rhsOrTrue_defaultRhs]

theorem defaultRhs_Rhs (attr : GoxAttrStmt) :
    (defaultRhs attr).Rhs = rhsOrTrue attr.Rhs := by
  rw [rhsOrTrue_defaultRhs]

/-! ## The loop over the children -/

theorem contentsBody_eq (genname : String) (args : List Expr) (expr : Expr) :
    contentsBody genname args expr = args ++ (childArg genname expr).toList := by
  cases expr <;> simp [contentsBody, childArg]
  case BareWordsExpr value =>
    by_cases h : strings.TrimSpace value = ""
    · have h0 : go.len (strings.TrimSpace value) = 0 := (len_eq_zero_iff _).2 h
      simp [h0]
      simp [h]
    · have h0 : go.len (strings.TrimSpace value) ≠ 0 := fun h1 =>
        h ((len_eq_zero_iff _).1 h1)
      simp [h, h0]

theorem foldl_contentsBody (genname : String) (X args : List Expr) :
    X.foldl (contentsBody genname) args = args ++ X.filterMap (childArg genname) := by
  induction X generalizing args with
  | nil => simp
  | cons x xs ih =>
    rw [List.foldl_cons, ih, contentsBody_eq, List.filterMap_cons]
    cases childArg genname x <;> simp

theorem length_filterMap_childArg (genname : String) (X : List Expr) :
    (X.filterMap (childArg genname)).length + (X.filter isBlankText).length
      = X.length := by
  induction X with
  | nil => simp
  | cons x xs ih =>
    cases x <;> simp [List.filterMap_cons, List.filter_cons, childArg, isBlankText] <;>
      try omega
    case BareWordsExpr value =>
      by_cases h : strings.TrimSpace value = "" <;> simp [h] <;> omega

/-! ## The loop of `mapProps` -/

theorem mapPropsBody_isSome (wide : Nat → Bool) (genname : String)
    (attr : GoxAttrStmt) (h : attr.Lhs ≠ none) :
    ∃ e, mapPropsBody wide genname attr = some (e, defaultRhs attr) := by
  cases hl : attr.Lhs with
  | none => exact absurd hl h
  | some lhs =>
    have hl1 : (defaultRhs attr).Lhs = some lhs := by rw [defaultRhs_Lhs, hl]
    simp only [mapPropsBody, hl1]
    cases mapGet eventMap lhs.Name with
    | some v => simp [newEventListener, hl1]
    | none =>
      cases mapGet attrMap lhs.Name with
      | some v => simp
      | none => simp

theorem mapProps_loop (wide : Nat → Bool) (genname : String)
    (attrs : List GoxAttrStmt) (h : ∀ a ∈ attrs, a.Lhs ≠ none)
    (m : List Expr) (s : List GoxAttrStmt) :
    ∃ es, attrs.foldlM (mapPropsStep wide genname) (m, s)
        = some (m ++ es, s ++ attrs.map defaultRhs) ∧
      List.Forall₂ (fun a e => mapPropsBody wide genname a = some (e, defaultRhs a))
        attrs es := by
  induction attrs generalizing m s with
  | nil => exact ⟨[], by simp, List.Forall₂.nil⟩
  | cons a as ih =>
    obtain ⟨e, he⟩ := mapPropsBody_isSome wide genname a (h a (by simp))
    obtain ⟨es, hes, hall⟩ := ih (fun b hb => h b (by simp [hb])) (m ++ [e])
      (s ++ [defaultRhs a])
    refine ⟨e :: es, ?_, List.Forall₂.cons he hall⟩
    rw [List.foldlM_cons]
    simp only [mapPropsStep, he]
    simpa using hes

/-- On attributes that all have an `Lhs`, `mapProps` returns one expression
per attribute, in order, each the one the loop body builds for it, and leaves
the attributes with their values defaulted. -/
theorem mapProps_spec (wide : Nat → Bool) (genname : String)
    (attrs : List GoxAttrStmt) (h : ∀ a ∈ attrs, a.Lhs ≠ none) :
    ∃ mapped, mapProps wide genname attrs = some (mapped, attrs.map defaultRhs) ∧
      mapped.length = attrs.length ∧
      ∀ (i : Nat) (a : GoxAttrStmt), attrs[i]? = some a →
        ∃ e, mapped[i]? = some e ∧ mapPropsBody wide genname a = some (e, defaultRhs a) := by
  obtain ⟨es, hes, hall⟩ := mapProps_loop wide genname attrs h [] []
  refine ⟨es, by simpa [mapProps] using hes, hall.length_eq.symm, ?_⟩
  intro i a hia
  rw [List.forall₂_iff_get] at hall
  obtain ⟨hlen, hget⟩ := hall
  have hi : i < attrs.length := by
    rcases List.getElem?_eq_some_iff.1 hia with ⟨hi, _⟩
    exact hi
  have hi2 : i < es.length := hlen ▸ hi
  refine ⟨es.get ⟨i, hi2⟩, by simp [List.getElem?_eq_getElem hi2], ?_⟩
  have := hget i hi hi2
  have ha : attrs.get ⟨i, hi⟩ = a := by
    rcases List.getElem?_eq_some_iff.1 hia with ⟨_, h2⟩
    simpa using h2
  rwa [ha] at this

/-! ## The first loop of `newComponent` -/

theorem newComponent_loop (attrs : List GoxAttrStmt)
    (h : ∀ a ∈ attrs, a.Lhs ≠ none) (k : Nat) (P R : List Expr)
    (PA : List GoxAttrStmt) (hP : P.length = k) (hPA : PA.length = k)
    (hR : R.length = attrs.length) :
    ∃ fs, (attrs.enumFrom k).foldlM newComponentBody (P ++ R, PA ++ attrs)
        = some (P ++ fs, PA ++ attrs.map defaultRhs) ∧
      List.Forall₂ (fun a f => ∃ lhs, a.Lhs = some lhs ∧
          f = Expr.KeyValueExpr (Expr.Ident (NewIdent lhs.Name)) token.NoPos
            (rhsOrTrue a.Rhs)) attrs fs := by
  induction attrs generalizing k P R PA with
  | nil =>
    have hR0 : R = [] := List.length_eq_zero.1 hR
    exact ⟨[], by simp [hR0], List.Forall₂.nil⟩
  | cons a as ih =>
    cases R with
    | nil => simp at hR
    | cons r R1 =>
      cases hl : a.Lhs with
      | none => exact absurd hl (h a (by simp))
      | some lhs =>
        have hR1 : R1.length = as.length := by simpa using hR
        obtain ⟨fs, hfs, hall⟩ := ih (fun b hb => h b (by simp [hb])) (k + 1)
          (P ++ [Expr.KeyValueExpr (Expr.Ident (NewIdent lhs.Name)) token.NoPos
            (rhsOrTrue a.Rhs)]) R1 (PA ++ [defaultRhs a]) (by simp [hP])
          (by simp [hPA]) hR1
        refine ⟨_ :: fs, ?_, List.Forall₂.cons ⟨lhs, hl, rfl⟩ hall⟩
        rw [List.enumFrom_cons, List.foldlM_cons]
        have hl1 : (defaultRhs a).Lhs = some lhs := by rw [defaultRhs_Lhs, hl]
        simp only [newComponentBody, hl1, defaultRhs_Rhs]
        have e1 : (P ++ r :: R1).set k
            (Expr.KeyValueExpr (Expr.Ident (NewIdent lhs.Name)) token.NoPos
              (rhsOrTrue a.Rhs))
            = (P ++ [Expr.KeyValueExpr (Expr.Ident (NewIdent lhs.Name)) token.NoPos
              (rhsOrTrue a.Rhs)]) ++ R1 := by
          simp [List.set_append, hP]
        have e2 : (PA ++ a :: as).set k (defaultRhs a)
            = (PA ++ [defaultRhs a]) ++ as := by
          simp [List.set_append, hPA]
        rw [e1, e2]
        simpa using hfs

/-- On attributes that all have an `Lhs`, the first loop of `newComponent`
fills `args` with one key-value pair per attribute, in order, and leaves the
attributes with their values defaulted. -/
theorem newComponent_fields (attrs : List GoxAttrStmt)
    (h : ∀ a ∈ attrs, a.Lhs ≠ none) :
    ∃ fs, attrs.enum.foldlM newComponentBody
        (List.replicate attrs.length Expr.Nil, attrs)
        = some (fs, attrs.map defaultRhs) ∧
      fs.length = attrs.length ∧
      ∀ (i : Nat) (a : GoxAttrStmt), attrs[i]? = some a →
        ∃ lhs, a.Lhs = some lhs ∧
          fs[i]? = some (Expr.KeyValueExpr (Expr.Ident (NewIdent lhs.Name))
            token.NoPos (rhsOrTrue a.Rhs)) := by
  obtain ⟨fs, hfs, hall⟩ := newComponent_loop attrs h 0 []
    (List.replicate attrs.length Expr.Nil) [] rfl rfl (by simp)
  refine ⟨fs, by simpa [List.enum] using hfs, hall.length_eq.symm, ?_⟩
  intro i a hia
  rw [List.forall₂_iff_get] at hall
  obtain ⟨hlen, hget⟩ := hall
  rcases List.getElem?_eq_some_iff.1 hia with ⟨hi, h2⟩
  have hi2 : i < fs.length := hlen ▸ hi
  obtain ⟨lhs, hl, hf⟩ := hget i hi hi2
  have ha : attrs.get ⟨i, hi⟩ = a := by simpa using h2
  rw [ha] at hl hf
  refine ⟨lhs, hl, ?_⟩
  rw [← hf]
  simp [List.getElem?_eq_getElem hi2]

/-! ## The two branches of `goxToVecty` -/

theorem isComponent_ident (gox : GoxExpr) (t : Ident) (b : Nat)
    (hT : gox.TagName = Expr.Ident t) (hb : go.index t.Name 0 = some b) :
    isComponent gox = some (unicode.IsUpper b) := by
  simp [isComponent, hT, hb]

/-- The Element branch: an identifier tag whose first byte is not upper-case
is lowered to `genname.Tag(name, [genname.Markup(mapped...)], child...)`. -/
theorem goxToVecty_element (wide : Nat → Bool) (genname : String) (gox : GoxExpr)
    (t : Ident) (b : Nat) (hT : gox.TagName = Expr.Ident t)
    (hb : go.index t.Name 0 = some b) (hU : unicode.IsUpper b = false)
    (hA : ∀ a ∈ gox.Attrs, a.Lhs ≠ none) :
    ∃ mapped, mapProps wide genname gox.Attrs
        = some (mapped, gox.Attrs.map defaultRhs) ∧
      mapped.length = gox.Attrs.length ∧
      (∀ (i : Nat) (a : GoxAttrStmt), gox.Attrs[i]? = some a →
        ∃ e, mapped[i]? = some e ∧
          mapPropsBody wide genname a = some (e, defaultRhs a)) ∧
      goxToVecty wide genname gox
        = some (newCallExpr (newSelectorExpr genname "Tag")
            ((Expr.BasicLit token.NoPos token.Token.STRING
                (strconv.Quote wide t.Name)
              :: (if gox.Attrs.isEmpty then []
                  else [newCallExpr (newSelectorExpr genname "Markup") mapped]))
              ++ gox.X.filterMap (childArg genname)),
          { TagName := gox.TagName, Attrs := gox.Attrs.map defaultRhs, X := gox.X }) := by
  obtain ⟨mapped, hm, hlen, hidx⟩ := mapProps_spec wide genname gox.Attrs hA
  refine ⟨mapped, hm, hlen, hidx, ?_⟩
  have hc := isComponent_ident gox t b hT hb
  rw [hU] at hc
  cases gox with
  | mk tag attrs X =>
    simp only at hT hm hlen hc ⊢
    subst hT
    simp only [goxToVecty, hc, foldl_contentsBody]
    cases attrs with
    | nil => simp
    | cons a as => simp [hm]

/-- A name that starts with an ASCII character other than `A`..`Z` has a first
byte that is not upper-case. -/
theorem first_byte_of_ascii_not_upper (s : String) (c : Char)
    (h : s.data.head? = some c) (hc : c.toNat < 0x80) (hU : asciiUpper c = false) :
    go.index s 0 = some c.toNat ∧ unicode.IsUpper c.toNat = false := by
  refine ⟨index_zero_ascii s c h hc, ?_⟩
  simp only [asciiUpper, Bool.and_eq_false_iff, decide_eq_false_iff_not] at hU
  simp only [unicode.IsUpper, Bool.or_eq_false_iff, Bool.and_eq_false_iff,
    decide_eq_false_iff_not]
  omega

/-- The Element branch on the node `div` with the attribute `class="x"` and
the child `hello`:
`genname.Tag("div", genname.Markup(genname.Property("class", "x")), genname.Text(hello))`. -/
theorem goxToVecty_div (wide : Nat → Bool) (genname : String) :
    goxToVecty wide genname
        ⟨Expr.Ident ⟨1, "div"⟩,
          [⟨some ⟨5, "class"⟩, Expr.BasicLit 11 token.Token.STRING "\"x\""⟩],
          [Expr.BareWordsExpr "hello"]⟩
      = some (newCallExpr (newSelectorExpr genname "Tag")
          [ Expr.BasicLit token.NoPos token.Token.STRING "\"div\"",
            newCallExpr (newSelectorExpr genname "Markup")
              [ newCallExpr (newSelectorExpr genname "Property")
                  [ Expr.BasicLit token.NoPos token.Token.STRING "\"class\"",
                    Expr.BasicLit 11 token.Token.STRING "\"x\"" ] ],
            newCallExpr (newSelectorExpr genname "Text") [Expr.BareWordsExpr "hello"] ],
        ⟨Expr.Ident ⟨1, "div"⟩,
          [⟨some ⟨5, "class"⟩, Expr.BasicLit 11 token.Token.STRING "\"x\""⟩],
          [Expr.BareWordsExpr "hello"]⟩) :=
  rfl

/-- The Component branch: every other tag is handed to `newComponent`. -/
theorem goxToVecty_component (wide : Nat → Bool) (genname : String) (gox : GoxExpr)
    (h : isComponent gox = some true) :
    goxToVecty wide genname gox = newComponent genname gox := by
  simp [goxToVecty, h]

/-- Function `newComponent` on a call-expression tag: the call itself, with
`genname.Text("", children...)` appended when there are children. -/
theorem newComponent_call (genname : String) (gox : GoxExpr) (fn : Expr)
    (lparen : token.Pos) (targs : List Expr) (ellipsis rparen : token.Pos)
    (hT : gox.TagName = Expr.CallExpr fn lparen targs ellipsis rparen)
    (hA : ∀ a ∈ gox.Attrs, a.Lhs ≠ none) :
    newComponent genname gox
      = some (Expr.CallExpr fn lparen
            (targs ++ (if gox.X.isEmpty then []
              else [newCallExpr (newSelectorExpr genname "Text")
                (Expr.BasicLit token.NoPos token.Token.STRING "\"\"" :: gox.X)]))
            ellipsis rparen,
          { TagName := Expr.CallExpr fn lparen
              (targs ++ (if gox.X.isEmpty then []
                else [newCallExpr (newSelectorExpr genname "Text")
                  (Expr.BasicLit token.NoPos token.Token.STRING "\"\"" :: gox.X)]))
              ellipsis rparen,
            Attrs := gox.Attrs.map defaultRhs, X := gox.X }) := by
  obtain ⟨fs, hfs, _, _⟩ := newComponent_fields gox.Attrs hA
  cases gox with
  | mk tag attrs X =>
    simp only at hT hfs ⊢
    subst hT
    simp only [newComponent, hfs]
    cases X with
    | nil => simp
    | cons x xs => simp [bodyText, emptyStringLit]

/-! ## The lookup tables and the body of the loop of `mapProps` -/

theorem mapGet_of_mem_keys (m : List (String × String)) (k : String)
    (h : k ∈ m.map Prod.fst) : ∃ v, mapGet m k = some v ∧ (k, v) ∈ m := by
  induction m with
  | nil => simp at h
  | cons p ps ih =>
    cases p with
    | mk k1 v1 =>
      by_cases hk : k = k1
      · subst hk
        exact ⟨v1, by simp [mapGet, List.lookup_cons], by simp⟩
      · have h1 : k ∈ ps.map Prod.fst := by
          simp only [List.map_cons, List.mem_cons] at h
          rcases h with h | h
          · exact absurd h hk
          · exact h
        obtain ⟨v, hv, hmem⟩ := ih h1
        refine ⟨v, ?_, by simp [hmem]⟩
        have hb : (k == k1) = false := by simpa using hk
        simpa [mapGet, List.lookup_cons, hb] using hv

theorem mapGet_of_not_mem_keys (m : List (String × String)) (k : String)
    (h : k ∉ m.map Prod.fst) : mapGet m k = none := by
  induction m with
  | nil => rfl
  | cons p ps ih =>
    cases p with
    | mk k1 v1 =>
      simp only [List.map_cons, List.mem_cons, not_or] at h
      have hb : (k == k1) = false := by simpa using h.1
      simpa [mapGet, List.lookup_cons, hb] using ih h.2

theorem mapIndex_of_mapGet (m : List (String × String)) (k v : String)
    (h : mapGet m k = some v) : mapIndex m k = v := by
  simp only [mapGet] at h
  simp [mapIndex, h]

set_option maxRecDepth 100000 in
/-- Every entry of `eventMap` is found under its key, and no handler name is
mapped to itself. -/
theorem eventMap_values : ∀ p ∈ eventMap, mapIndex eventMap p.1 = p.2 ∧ p.2 ≠ p.1 := by
  decide

/-- The body of the loop of `mapProps` on a key of `eventMap`. -/
theorem mapPropsBody_event (wide : Nat → Bool) (genname : String)
    (a : GoxAttrStmt) (lhs : Ident) (v : String) (hl : a.Lhs = some lhs)
    (hv : mapGet eventMap lhs.Name = some v) :
    mapPropsBody wide genname a
      = some (Expr.UnaryExpr token.NoPos token.Token.AND
          (Expr.CompositeLit (newSelectorExpr genname "EventListener") token.NoPos
            [ Expr.KeyValueExpr (Expr.Ident (NewIdent "Name")) token.NoPos
                (Expr.BasicLit token.NoPos token.Token.STRING
                  (strconv.Quote wide (mapIndex eventMap lhs.Name))),
              Expr.KeyValueExpr (Expr.Ident (NewIdent "Listener")) token.NoPos
                (rhsOrTrue a.Rhs) ]
            token.NoPos), defaultRhs a) := by
  have hl1 : (defaultRhs a).Lhs = some lhs := by rw [defaultRhs_Lhs, hl]
  simp [mapPropsBody, hl1, hv, newEventListener, defaultRhs_Rhs]

/-- The body of the loop of `mapProps` on a key of `attrMap` that is no key of
`eventMap`. -/
theorem mapPropsBody_property (wide : Nat → Bool) (genname : String)
    (a : GoxAttrStmt) (lhs : Ident) (v : String) (hl : a.Lhs = some lhs)
    (he : mapGet eventMap lhs.Name = none) (hv : mapGet attrMap lhs.Name = some v) :
    mapPropsBody wide genname a
      = some (newCallExpr (newSelectorExpr genname "Property")
          [ Expr.BasicLit token.NoPos token.Token.STRING (strconv.Quote wide v),
            rhsOrTrue a.Rhs ], defaultRhs a) := by
  have hl1 : (defaultRhs a).Lhs = some lhs := by rw [defaultRhs_Lhs, hl]
  simp [mapPropsBody, hl1, he, hv, defaultRhs_Rhs]

/-- The body of the loop of `mapProps` on a name that is in neither table. -/
theorem mapPropsBody_attribute (wide : Nat → Bool) (genname : String)
    (a : GoxAttrStmt) (lhs : Ident) (hl : a.Lhs = some lhs)
    (he : mapGet eventMap lhs.Name = none) (hv : mapGet attrMap lhs.Name = none) :
    mapPropsBody wide genname a
      = some (newCallExpr (newSelectorExpr genname "Attribute")
          [ Expr.BasicLit token.NoPos token.Token.STRING
              (strconv.Quote wide lhs.Name),
            rhsOrTrue a.Rhs ], defaultRhs a) := by
  have hl1 : (defaultRhs a).Lhs = some lhs := by rw [defaultRhs_Lhs, hl]
  simp [mapPropsBody, hl1, he, hv, defaultRhs_Rhs]

/-- What `mapProps` returns at the index of one attribute. -/
theorem mapProps_at (wide : Nat → Bool) (genname : String)
    (attrs : List GoxAttrStmt) (i : Nat) (a : GoxAttrStmt) (e : Expr)
    (hA : ∀ b ∈ attrs, b.Lhs ≠ none) (hi : attrs[i]? = some a)
    (he : mapPropsBody wide genname a = some (e, defaultRhs a)) :
    ∃ mapped, mapProps wide genname attrs = some (mapped, attrs.map defaultRhs) ∧
      mapped.length = attrs.length ∧ mapped[i]? = some e := by
  obtain ⟨mapped, hm, hlen, hidx⟩ := mapProps_spec wide genname attrs hA
  obtain ⟨e1, he1, hb⟩ := hidx i a hi
  rw [he] at hb
  simp only [Option.some.injEq, Prod.mk.injEq, and_true] at hb
  exact ⟨mapped, hm, hlen, by rw [he1, hb]⟩

theorem rhsOrTrue_nil : rhsOrTrue Expr.Nil = Expr.Ident (NewIdent "true") := rfl

theorem rhsOrTrue_of_ne_nil (rhs : Expr) (h : rhs ≠ Expr.Nil) : rhsOrTrue rhs = rhs := by
  cases rhs <;> first | rfl | exact absurd rfl h

/-! ## The two attribute loops as maps -/

theorem attrName_of_Lhs (a : GoxAttrStmt) (lhs : Ident) (h : a.Lhs = some lhs) :
    attrName a = lhs.Name := by
  simp [attrName, h]

theorem propExpr_spec (wide : Nat → Bool) (genname : String) (a : GoxAttrStmt)
    (h : a.Lhs ≠ none) :
    mapPropsBody wide genname a = some (propExpr wide genname a, defaultRhs a) := by
  obtain ⟨e, he⟩ := mapPropsBody_isSome wide genname a h
  simp [propExpr, he]

theorem forall₂_eq_map {α β : Type} (R : α → β → Prop) (F : α → β)
    (hR : ∀ a b, R a b → b = F a) (l : List α) (m : List β)
    (h : List.Forall₂ R l m) : m = l.map F := by
  induction h with
  | nil => rfl
  | cons hab _ ih => rw [List.map_cons, ← ih, ← hR _ _ hab]

/-- On attributes that all have an `Lhs`, `mapProps` is a map over the
attributes. -/
theorem mapProps_eq_map (wide : Nat → Bool) (genname : String)
    (attrs : List GoxAttrStmt) (hA : ∀ a ∈ attrs, a.Lhs ≠ none) :
    mapProps wide genname attrs
      = some (attrs.map (propExpr wide genname), attrs.map defaultRhs) := by
  obtain ⟨es, hes, hall⟩ := mapProps_loop wide genname attrs hA [] []
  have h := forall₂_eq_map _ (propExpr wide genname)
    (fun a e (hae : mapPropsBody wide genname a = some (e, defaultRhs a)) => by
      simp [propExpr, hae]) attrs es hall
  rw [h] at hes
  simpa [mapProps] using hes

/-- On attributes that all have an `Lhs`, the first loop of `newComponent` is a
map over the attributes. -/
theorem newComponent_fields_eq_map (attrs : List GoxAttrStmt)
    (hA : ∀ a ∈ attrs, a.Lhs ≠ none) :
    attrs.enum.foldlM newComponentBody (List.replicate attrs.length Expr.Nil, attrs)
      = some (attrs.map fieldExpr, attrs.map defaultRhs) := by
  obtain ⟨fs, hfs, hall⟩ := newComponent_loop attrs hA 0 []
    (List.replicate attrs.length Expr.Nil) [] rfl rfl (by simp)
  have h := forall₂_eq_map _ fieldExpr
    (fun a f (haf : ∃ lhs, a.Lhs = some lhs ∧
        f = Expr.KeyValueExpr (Expr.Ident (NewIdent lhs.Name)) token.NoPos
          (rhsOrTrue a.Rhs)) => by
      obtain ⟨lhs, hl, hf⟩ := haf
      rw [hf, fieldExpr, attrName_of_Lhs a lhs hl]) attrs fs hall
  rw [h] at hfs
  simpa [List.enum] using hfs

/-- The Element branch, in full. -/
theorem goxToVecty_element_eq (wide : Nat → Bool) (genname : String)
    (gox : GoxExpr) (t : Ident) (b : Nat) (hT : gox.TagName = Expr.Ident t)
    (hb : go.index t.Name 0 = some b) (hU : unicode.IsUpper b = false)
    (hA : ∀ a ∈ gox.Attrs, a.Lhs ≠ none) :
    goxToVecty wide genname gox
      = some (newCallExpr (newSelectorExpr genname "Tag")
          ((Expr.BasicLit token.NoPos token.Token.STRING (strconv.Quote wide t.Name)
            :: (if gox.Attrs.isEmpty then []
                else [newCallExpr (newSelectorExpr genname "Markup")
                  (gox.Attrs.map (propExpr wide genname))]))
            ++ gox.X.filterMap (childArg genname)),
        { TagName := gox.TagName, Attrs := gox.Attrs.map defaultRhs, X := gox.X }) := by
  obtain ⟨mapped, hm, _, _, hres⟩ := goxToVecty_element wide genname gox t b hT hb hU hA
  rw [mapProps_eq_map wide genname gox.Attrs hA] at hm
  simp only [Option.some.injEq, Prod.mk.injEq, and_true] at hm
  rw [hres, ← hm]

/-- Function `newComponent` on a tag that is no call expression, in full. -/
theorem newComponent_other_eq (genname : String) (gox : GoxExpr)
    (hT : ∀ fn lparen targs ellipsis rparen,
      gox.TagName ≠ Expr.CallExpr fn lparen targs ellipsis rparen)
    (hA : ∀ a ∈ gox.Attrs, a.Lhs ≠ none) :
    newComponent genname gox
      = some (newCallExpr (newSelectorExpr genname "NewComponent")
          [Expr.UnaryExpr token.NoPos token.Token.AND
            (Expr.CompositeLit gox.TagName token.NoPos
              (gox.Attrs.map fieldExpr ++ (if gox.X.isEmpty then []
                else [Expr.KeyValueExpr (Expr.Ident (NewIdent "Body")) token.NoPos
                  (bodyText genname gox.X)]))
              token.NoPos)],
        { TagName := gox.TagName, Attrs := gox.Attrs.map defaultRhs, X := gox.X }) := by
  have hfs := newComponent_fields_eq_map gox.Attrs hA
  cases gox with
  | mk tag attrs X =>
    simp only at hT hfs ⊢
    simp only [newComponent, hfs]
    cases tag with
    | CallExpr fn lparen targs ellipsis rparen => exact absurd rfl (hT _ _ _ _ _)
    | _ => cases X <;> simp

/-- Function `newComponent` on a call-expression tag, in full. -/
theorem newComponent_call_eq (genname : String) (gox : GoxExpr) (fn : Expr)
    (lparen : token.Pos) (targs : List Expr) (ellipsis rparen : token.Pos)
    (hT : gox.TagName = Expr.CallExpr fn lparen targs ellipsis rparen)
    (hA : ∀ a ∈ gox.Attrs, a.Lhs ≠ none) :
    newComponent genname gox
      = some (Expr.CallExpr fn lparen
            (targs ++ (if gox.X.isEmpty then [] else [bodyText genname gox.X]))
            ellipsis rparen,
          { TagName := Expr.CallExpr fn lparen
              (targs ++ (if gox.X.isEmpty then [] else [bodyText genname gox.X]))
              ellipsis rparen,
            Attrs := gox.Attrs.map defaultRhs, X := gox.X }) := by
  rw [newComponent_call genname gox fn lparen targs ellipsis rparen hT hA]
  rfl

/-- A name that is not empty has a first byte. -/
theorem index_zero_of_ne_empty (s : String) (h : s ≠ "") :
    ∃ b, go.index s 0 = some b := by
  cases s with
  | mk cs =>
    cases cs with
    | nil => exact absurd rfl h
    | cons c cs =>
      have hpos := Char.utf8Size_pos c
      have hlen : 0 < (go.bytes (String.mk (c :: cs))).length := by
        simp [go.bytes, String.length_utf8EncodeChar]
        omega
      exact ⟨(go.bytes (String.mk (c :: cs)))[0], by simp [go.index, hlen]⟩

/-- The empty name has no first byte: `Name[0]` panics. -/
theorem index_zero_empty : go.index "" 0 = none := by decide

/-! ## Defaulting twice -/

theorem rhsOrTrue_idem (rhs : Expr) : rhsOrTrue (rhsOrTrue rhs) = rhsOrTrue rhs := by
  cases rhs <;> rfl

theorem defaultRhs_idem (a : GoxAttrStmt) : defaultRhs (defaultRhs a) = defaultRhs a := by
  rw [rhsOrTrue_defaultRhs (defaultRhs a), rhsOrTrue_defaultRhs a]
  simp [rhsOrTrue_idem]

theorem mapPropsBody_defaultRhs (wide : Nat → Bool) (genname : String)
    (a : GoxAttrStmt) :
    mapPropsBody wide genname (defaultRhs a) = mapPropsBody wide genname a := by
  simp only [mapPropsBody, defaultRhs_idem]

theorem propExpr_defaultRhs (wide : Nat → Bool) (genname : String) (a : GoxAttrStmt) :
    propExpr wide genname (defaultRhs a) = propExpr wide genname a := by
  simp only [propExpr, mapPropsBody_defaultRhs]

theorem fieldExpr_defaultRhs (a : GoxAttrStmt) : fieldExpr (defaultRhs a) = fieldExpr a := by
  simp [fieldExpr, attrName, defaultRhs_Lhs, defaultRhs_Rhs, rhsOrTrue_idem]

theorem defaulted_Lhs (attrs : List GoxAttrStmt) (hA : ∀ a ∈ attrs, a.Lhs ≠ none) :
    ∀ a ∈ attrs.map defaultRhs, a.Lhs ≠ none := by
  intro a ha
  obtain ⟨b, hb, rfl⟩ := List.mem_map.1 ha
  rw [defaultRhs_Lhs]
  exact hA b hb

theorem getElem?_map_defaultRhs (attrs : List GoxAttrStmt) (i : Nat) (a : GoxAttrStmt)
    (h : attrs[i]? = some a) :
    (attrs.map defaultRhs)[i]? = some ⟨a.Lhs, rhsOrTrue a.Rhs⟩ := by
  rw [List.getElem?_map, h, Option.map_some', rhsOrTrue_defaultRhs]

/-- What `goxToVecty` returns and leaves behind on well-formed input: the
attributes with their values defaulted, the children as they were, and the tag
as it was unless it is a call expression with children, which has gained the
argument `genname.Text("", children...)` and is the result. -/
theorem goxToVecty_node (wide : Nat → Bool) (genname : String) (gox : GoxExpr)
    (hW : WellFormed gox) :
    ∃ (e tag : Expr), goxToVecty wide genname gox
        = some (e, { TagName := tag, Attrs := gox.Attrs.map defaultRhs, X := gox.X }) ∧
      ((tag = gox.TagName ∧
          ((∀ fn lparen targs ellipsis rparen,
              gox.TagName ≠ Expr.CallExpr fn lparen targs ellipsis rparen) ∨ gox.X = [])) ∨
        (∃ fn lparen targs ellipsis rparen,
          gox.TagName = Expr.CallExpr fn lparen targs ellipsis rparen ∧ gox.X ≠ [] ∧
          tag = Expr.CallExpr fn lparen (targs ++ [bodyText genname gox.X]) ellipsis rparen ∧
          e = tag)) := by
  obtain ⟨hA, hN⟩ := hW
  by_cases hC : ∃ fn lparen targs ellipsis rparen,
      gox.TagName = Expr.CallExpr fn lparen targs ellipsis rparen
  · obtain ⟨fn, lparen, targs, ellipsis, rparen, hT⟩ := hC
    have hc : isComponent gox = some true := by simp [isComponent, hT]
    have hres := newComponent_call_eq genname gox fn lparen targs ellipsis rparen hT hA
    rw [← goxToVecty_component wide genname gox hc] at hres
    refine ⟨_, _, hres, ?_⟩
    cases hX : gox.X with
    | nil =>
      left
      simp [hT]
    | cons x xs =>
      right
      refine ⟨fn, lparen, targs, ellipsis, rparen, hT, by simp, ?_, ?_⟩ <;> simp
  · have hC1 : ∀ fn lparen targs ellipsis rparen,
        gox.TagName ≠ Expr.CallExpr fn lparen targs ellipsis rparen :=
      fun fn lparen targs ellipsis rparen h => hC ⟨fn, lparen, targs, ellipsis, rparen, h⟩
    by_cases hI : ∃ t, gox.TagName = Expr.Ident t
    · obtain ⟨t, hT⟩ := hI
      obtain ⟨b, hb⟩ := index_zero_of_ne_empty t.Name (hN t hT)
      cases hU : unicode.IsUpper b with
      | false =>
        exact ⟨_, _, goxToVecty_element_eq wide genname gox t b hT hb hU hA,
          Or.inl ⟨rfl, Or.inl hC1⟩⟩
      | true =>
        have hc : isComponent gox = some true := by
          rw [isComponent_ident gox t b hT hb, hU]
        rw [goxToVecty_component wide genname gox hc]
        exact ⟨_, _, newComponent_other_eq genname gox hC1 hA, Or.inl ⟨rfl, Or.inl hC1⟩⟩
    · have hc : isComponent gox = some true := by
        cases hg : gox.TagName with
        | Ident t => exact absurd ⟨t, hg⟩ hI
        | _ => simp [isComponent, hg]
      rw [goxToVecty_component wide genname gox hc]
      exact ⟨_, _, newComponent_other_eq genname gox hC1 hA, Or.inl ⟨rfl, Or.inl hC1⟩⟩

/-! ## Where the nodes of the result come from -/

theorem root_mem_nodes (e : Expr) : e ∈ nodes e := by
  cases e <;> simp [nodes]

theorem mem_nodesList (n : Expr) (l : List Expr) :
    n ∈ nodesList l ↔ ∃ e ∈ l, n ∈ nodes e := by
  induction l with
  | nil => simp [nodesList]
  | cons x xs ih => simp [nodesList, ih]

theorem nodesList_append (l m : List Expr) :
    nodesList (l ++ m) = nodesList l ++ nodesList m := by
  induction l with
  | nil => simp [nodesList]
  | cons x xs ih => simp [nodesList, ih]

theorem synthesized_ident (genname name : String) :
    Synthesized genname (Expr.Ident (NewIdent name)) := by
  simp [Synthesized, ownPositions, NewIdent]

theorem synthesized_lit (genname value : String) :
    Synthesized genname (Expr.BasicLit token.NoPos token.Token.STRING value) := by
  simp [Synthesized, ownPositions]

theorem synthesized_selector (genname name : String) (h : name ∈ apiNames) :
    Synthesized genname (newSelectorExpr genname name) := by
  refine ⟨by simp [ownPositions, newSelectorExpr, NewIdent], ?_⟩
  intro x sel hx
  simp only [newSelectorExpr, Expr.SelectorExpr.injEq] at hx
  exact ⟨hx.1.symm, name, h, hx.2.symm⟩

theorem synthesized_call (genname : String) (fn : Expr) (args : List Expr) :
    Synthesized genname (newCallExpr fn args) := by
  simp [Synthesized, ownPositions, newCallExpr]

theorem synthesized_unary (genname : String) (x : Expr) :
    Synthesized genname (Expr.UnaryExpr token.NoPos token.Token.AND x) := by
  simp [Synthesized, ownPositions]

theorem synthesized_composite (genname : String) (ty : Expr) (elts : List Expr) :
    Synthesized genname (Expr.CompositeLit ty token.NoPos elts token.NoPos) := by
  simp [Synthesized, ownPositions]

theorem synthesized_keyValue (genname : String) (key value : Expr) :
    Synthesized genname (Expr.KeyValueExpr key token.NoPos value) := by
  simp [Synthesized, ownPositions]

/-- The nodes of a call the pass builds: the call, its selector with the
qualifier, and the nodes of the arguments. -/
theorem nodes_api_call (genname name : String) (h : name ∈ apiNames)
    (args : List Expr) (n : Expr)
    (hn : n ∈ nodes (newCallExpr (newSelectorExpr genname name) args)) :
    Synthesized genname n ∨ n ∈ nodesList args := by
  simp only [newCallExpr, newSelectorExpr, nodes, List.mem_cons, List.mem_append,
    List.mem_singleton, List.not_mem_nil, or_false] at hn
  rcases hn with rfl | (rfl | rfl) | hn
  · exact Or.inl (synthesized_call genname _ _)
  · exact Or.inl (synthesized_selector genname name h)
  · exact Or.inl (synthesized_ident genname genname)
  · exact Or.inr hn

theorem nodes_rhsOrTrue (genname : String) (rhs n : Expr)
    (hn : n ∈ nodes (rhsOrTrue rhs)) : Synthesized genname n ∨ n ∈ nodes rhs := by
  cases rhs
  case Nil =>
    simp only [rhsOrTrue, nodes, List.mem_singleton] at hn
    exact Or.inl (hn ▸ synthesized_ident genname "true")
  all_goals exact Or.inr hn

theorem nodes_propExpr (wide : Nat → Bool) (genname : String) (a : GoxAttrStmt)
    (hA : a.Lhs ≠ none) (n : Expr) (hn : n ∈ nodes (propExpr wide genname a)) :
    Synthesized genname n ∨ n ∈ nodes a.Rhs := by
  cases hl : a.Lhs with
  | none => exact absurd hl hA
  | some lhs =>
    cases he : mapGet eventMap lhs.Name with
    | some v =>
      have hb := mapPropsBody_event wide genname a lhs v hl he
      simp only [propExpr, hb, nodes, nodesList, newSelectorExpr, List.mem_cons,
        List.mem_append, List.mem_singleton, List.not_mem_nil, or_false,
        List.append_nil] at hn
      rcases hn with rfl | rfl | (rfl | rfl) | (rfl | rfl | rfl) | rfl | rfl | hn
      · exact Or.inl (synthesized_unary genname _)
      · exact Or.inl (synthesized_composite genname _ _)
      · exact Or.inl (synthesized_selector genname "EventListener" (by decide))
      · exact Or.inl (synthesized_ident genname genname)
      · exact Or.inl (synthesized_keyValue genname _ _)
      · exact Or.inl (synthesized_ident genname "Name")
      · exact Or.inl (synthesized_lit genname _)
      · exact Or.inl (synthesized_keyValue genname _ _)
      · exact Or.inl (synthesized_ident genname "Listener")
      · exact nodes_rhsOrTrue genname a.Rhs n hn
    | none =>
      cases hp : mapGet attrMap lhs.Name with
      | some v =>
        have hb := mapPropsBody_property wide genname a lhs v hl he hp
        simp only [propExpr, hb] at hn
        rcases nodes_api_call genname "Property" (by decide) _ n hn with h | h
        · exact Or.inl h
        · simp only [nodesList, nodes, List.mem_append, List.mem_singleton,
            List.not_mem_nil, or_false, List.append_nil] at h
          rcases h with rfl | h
          · exact Or.inl (synthesized_lit genname _)
          · exact nodes_rhsOrTrue genname a.Rhs n h
      | none =>
        have hb := mapPropsBody_attribute wide genname a lhs hl he hp
        simp only [propExpr, hb] at hn
        rcases nodes_api_call genname "Attribute" (by decide) _ n hn with h | h
        · exact Or.inl h
        · simp only [nodesList, nodes, List.mem_append, List.mem_singleton,
            List.not_mem_nil, or_false, List.append_nil] at h
          rcases h with rfl | h
          · exact Or.inl (synthesized_lit genname _)
          · exact nodes_rhsOrTrue genname a.Rhs n h

theorem nodes_fieldExpr (genname : String) (a : GoxAttrStmt) (n : Expr)
    (hn : n ∈ nodes (fieldExpr a)) : Synthesized genname n ∨ n ∈ nodes a.Rhs := by
  simp only [fieldExpr, nodes, List.mem_cons, List.mem_append, List.mem_singleton,
    List.not_mem_nil, or_false] at hn
  rcases hn with rfl | rfl | hn
  · exact Or.inl (synthesized_keyValue genname _ _)
  · exact Or.inl (synthesized_ident genname _)
  · exact nodes_rhsOrTrue genname a.Rhs n hn

theorem nodes_childArg (genname : String) (c e n : Expr)
    (hc : childArg genname c = some e) (hn : n ∈ nodes e) :
    Synthesized genname n ∨ n ∈ nodes c := by
  cases c
  case BareWordsExpr value =>
    by_cases hv : strings.TrimSpace value = ""
    · simp [childArg, hv] at hc
    · simp only [childArg, hv, if_false, Option.some.injEq] at hc
      subst hc
      rcases nodes_api_call genname "Text" (by decide) _ n hn with h | h
      · exact Or.inl h
      · simpa [nodesList] using Or.inr h
  case GoExpr x =>
    simp only [childArg, Option.some.injEq] at hc
    subst hc
    rcases nodes_api_call genname "Value" (by decide) _ n hn with h | h
    · exact Or.inl h
    · right
      simpa [nodesList] using h
  all_goals
    simp only [childArg, Option.some.injEq] at hc
    subst hc
    exact Or.inr hn

theorem nodes_bodyText (genname : String) (X : List Expr) (n : Expr)
    (hn : n ∈ nodes (bodyText genname X)) :
    Synthesized genname n ∨ n ∈ nodesList X := by
  rcases nodes_api_call genname "Text" (by decide) _ n hn with h | h
  · exact Or.inl h
  · rw [nodesList_append] at h
    simp only [emptyStringLit, nodesList, nodes, List.mem_append, List.mem_singleton,
      List.append_nil] at h
    rcases h with rfl | h
    · exact Or.inl (synthesized_lit genname _)
    · exact Or.inr h

theorem nodesList_map_propExpr (wide : Nat → Bool) (genname : String)
    (attrs : List GoxAttrStmt) (hA : ∀ a ∈ attrs, a.Lhs ≠ none) (n : Expr)
    (hn : n ∈ nodesList (attrs.map (propExpr wide genname))) :
    Synthesized genname n ∨ n ∈ nodesList (attrs.map (fun a => a.Rhs)) := by
  obtain ⟨e, he, hne⟩ := (mem_nodesList n _).1 hn
  obtain ⟨a, ha, rfl⟩ := List.mem_map.1 he
  rcases nodes_propExpr wide genname a (hA a ha) n hne with h | h
  · exact Or.inl h
  · exact Or.inr ((mem_nodesList n _).2 ⟨a.Rhs, List.mem_map.2 ⟨a, ha, rfl⟩, h⟩)

theorem nodesList_map_fieldExpr (genname : String) (attrs : List GoxAttrStmt)
    (n : Expr) (hn : n ∈ nodesList (attrs.map fieldExpr)) :
    Synthesized genname n ∨ n ∈ nodesList (attrs.map (fun a => a.Rhs)) := by
  obtain ⟨e, he, hne⟩ := (mem_nodesList n _).1 hn
  obtain ⟨a, ha, rfl⟩ := List.mem_map.1 he
  rcases nodes_fieldExpr genname a n hne with h | h
  · exact Or.inl h
  · exact Or.inr ((mem_nodesList n _).2 ⟨a.Rhs, List.mem_map.2 ⟨a, ha, rfl⟩, h⟩)

theorem nodesList_filterMap_childArg (genname : String) (X : List Expr) (n : Expr)
    (hn : n ∈ nodesList (X.filterMap (childArg genname))) :
    Synthesized genname n ∨ n ∈ nodesList X := by
  obtain ⟨e, he, hne⟩ := (mem_nodesList n _).1 hn
  obtain ⟨c, hc, hce⟩ := List.mem_filterMap.1 he
  rcases nodes_childArg genname c e n hce hne with h | h
  · exact Or.inl h
  · exact Or.inr ((mem_nodesList n _).2 ⟨c, hc, h⟩)

/-- Every node of the result of the Element branch is built by the pass or is
a node of the input. -/
theorem provenance_element (wide : Nat → Bool) (genname : String) (gox : GoxExpr)
    (t : Ident) (hA : ∀ a ∈ gox.Attrs, a.Lhs ≠ none) (n : Expr)
    (hn : n ∈ nodes (newCallExpr (newSelectorExpr genname "Tag")
      ((Expr.BasicLit token.NoPos token.Token.STRING (strconv.Quote wide t.Name)
        :: (if gox.Attrs.isEmpty then []
            else [newCallExpr (newSelectorExpr genname "Markup")
              (gox.Attrs.map (propExpr wide genname))]))
        ++ gox.X.filterMap (childArg genname)))) :
    Synthesized genname n ∨ FromInput gox n := by
  rcases nodes_api_call genname "Tag" (by decide) _ n hn with h | h
  · exact Or.inl h
  · rw [nodesList_append] at h
    simp only [nodesList, nodes, List.mem_append, List.mem_singleton] at h
    rcases h with (rfl | h) | h
    · exact Or.inl (synthesized_lit genname _)
    · cases hE : gox.Attrs.isEmpty with
      | true => simp [hE, nodesList] at h
      | false =>
        simp only [hE, Bool.false_eq_true, if_false, nodesList, List.append_nil] at h
        rcases nodes_api_call genname "Markup" (by decide) _ n h with h1 | h1
        · exact Or.inl h1
        · rcases nodesList_map_propExpr wide genname gox.Attrs hA n h1 with h2 | h2
          · exact Or.inl h2
          · exact Or.inr (Or.inr (Or.inr h2))
    · rcases nodesList_filterMap_childArg genname gox.X n h with h1 | h1
      · exact Or.inl h1
      · exact Or.inr (Or.inr (Or.inl h1))

/-- Every node of what `newComponent` builds around a tag is built by the pass
or is a node of the input. -/
theorem provenance_component (genname : String) (gox : GoxExpr) (n : Expr)
    (hn : n ∈ nodes (newCallExpr (newSelectorExpr genname "NewComponent")
      [Expr.UnaryExpr token.NoPos token.Token.AND
        (Expr.CompositeLit gox.TagName token.NoPos
          (gox.Attrs.map fieldExpr ++ (if gox.X.isEmpty then []
            else [Expr.KeyValueExpr (Expr.Ident (NewIdent "Body")) token.NoPos
              (bodyText genname gox.X)]))
          token.NoPos)])) :
    Synthesized genname n ∨ FromInput gox n := by
  rcases nodes_api_call genname "NewComponent" (by decide) _ n hn with h | h
  · exact Or.inl h
  · simp only [nodesList, nodes, List.append_nil, List.mem_cons, List.mem_append] at h
    rcases h with rfl | rfl | h | h
    · exact Or.inl (synthesized_unary genname _)
    · exact Or.inl (synthesized_composite genname _ _)
    · exact Or.inr (Or.inl h)
    · rw [nodesList_append] at h
      rcases List.mem_append.1 h with h | h
      · rcases nodesList_map_fieldExpr genname gox.Attrs n h with h2 | h2
        · exact Or.inl h2
        · exact Or.inr (Or.inr (Or.inr h2))
      · cases hE : gox.X.isEmpty with
        | true => simp [hE, nodesList] at h
        | false =>
          simp only [hE, Bool.false_eq_true, if_false] at h
          generalize hbt : bodyText genname gox.X = bt at h
          simp only [nodesList, nodes, List.append_nil, List.mem_cons, List.mem_append,
            List.mem_singleton, List.not_mem_nil, or_false] at h
          rcases h with rfl | rfl | h
          · exact Or.inl (synthesized_keyValue genname _ _)
          · exact Or.inl (synthesized_ident genname _)
          · rw [← hbt] at h
            rcases nodes_bodyText genname gox.X n h with h2 | h2
            · exact Or.inl h2
            · exact Or.inr (Or.inr (Or.inl h2))

/-- Every node of the call a call-expression tag is lowered to is the call
itself, a node of the input, or built by the pass. -/
theorem provenance_call (genname : String) (gox : GoxExpr) (fn : Expr)
    (lparen : token.Pos) (targs : List Expr) (ellipsis rparen : token.Pos)
    (hT : gox.TagName = Expr.CallExpr fn lparen targs ellipsis rparen) (n : Expr)
    (hn : n ∈ nodes (Expr.CallExpr fn lparen
      (targs ++ (if gox.X.isEmpty then [] else [bodyText genname gox.X]))
      ellipsis rparen)) :
    Synthesized genname n ∨ FromInput gox n ∨
      n = Expr.CallExpr fn lparen
        (targs ++ (if gox.X.isEmpty then [] else [bodyText genname gox.X]))
        ellipsis rparen := by
  simp only [nodes, List.mem_cons, List.mem_append] at hn
  rcases hn with rfl | h | h
  · exact Or.inr (Or.inr rfl)
  · refine Or.inr (Or.inl (Or.inl ?_))
    rw [hT]
    simp [nodes, h]
  · rw [nodesList_append] at h
    rcases List.mem_append.1 h with h | h
    · refine Or.inr (Or.inl (Or.inl ?_))
      rw [hT]
      simp [nodes, h]
    · cases hE : gox.X.isEmpty with
      | true => simp [hE, nodesList] at h
      | false =>
        simp only [hE, Bool.false_eq_true, if_false, nodesList, List.append_nil] at h
        rcases nodes_bodyText genname gox.X n h with h2 | h2
        · exact Or.inl h2
        · exact Or.inr (Or.inl (Or.inr (Or.inl h2)))

/-- On well-formed input every node of the result is built by the pass, or is
a node of the input, or is the result itself where that is the call of a
call-expression tag. -/
theorem goxToVecty_provenance (wide : Nat → Bool) (genname : String) (gox : GoxExpr)
    (hW : WellFormed gox) :
    ∃ (e : Expr) (node : GoxExpr), goxToVecty wide genname gox = some (e, node) ∧
      ∀ n ∈ nodes e, Synthesized genname n ∨ FromInput gox n ∨
        (n = e ∧ ∃ fn lparen targs args ellipsis rparen,
          gox.TagName = Expr.CallExpr fn lparen targs ellipsis rparen ∧
          e = Expr.CallExpr fn lparen args ellipsis rparen) := by
  obtain ⟨hA, hN⟩ := hW
  by_cases hC : ∃ fn lparen targs ellipsis rparen,
      gox.TagName = Expr.CallExpr fn lparen targs ellipsis rparen
  · obtain ⟨fn, lparen, targs, ellipsis, rparen, hT⟩ := hC
    have hc : isComponent gox = some true := by simp [isComponent, hT]
    have hres := newComponent_call_eq genname gox fn lparen targs ellipsis rparen hT hA
    rw [← goxToVecty_component wide genname gox hc] at hres
    refine ⟨_, _, hres, ?_⟩
    intro n hn
    rcases provenance_call genname gox fn lparen targs ellipsis rparen hT n hn
      with h | h | h
    · exact Or.inl h
    · exact Or.inr (Or.inl h)
    · exact Or.inr (Or.inr ⟨h, fn, lparen, targs, _, ellipsis, rparen, hT, rfl⟩)
  · have hC1 : ∀ fn lparen targs ellipsis rparen,
        gox.TagName ≠ Expr.CallExpr fn lparen targs ellipsis rparen :=
      fun fn lparen targs ellipsis rparen h => hC ⟨fn, lparen, targs, ellipsis, rparen, h⟩
    have hcomp : isComponent gox = some true →
        ∃ (e : Expr) (node : GoxExpr), goxToVecty wide genname gox = some (e, node) ∧
          ∀ n ∈ nodes e, Synthesized genname n ∨ FromInput gox n ∨
            (n = e ∧ ∃ fn lparen targs args ellipsis rparen,
              gox.TagName = Expr.CallExpr fn lparen targs ellipsis rparen ∧
              e = Expr.CallExpr fn lparen args ellipsis rparen) := by
      intro hc
      rw [goxToVecty_component wide genname gox hc]
      refine ⟨_, _, newComponent_other_eq genname gox hC1 hA, ?_⟩
      intro n hn
      rcases provenance_component genname gox n hn with h | h
      · exact Or.inl h
      · exact Or.inr (Or.inl h)
    by_cases hI : ∃ t, gox.TagName = Expr.Ident t
    · obtain ⟨t, hT⟩ := hI
      obtain ⟨b, hb⟩ := index_zero_of_ne_empty t.Name (hN t hT)
      cases hU : unicode.IsUpper b with
      | false =>
        refine ⟨_, _, goxToVecty_element_eq wide genname gox t b hT hb hU hA, ?_⟩
        intro n hn
        rcases provenance_element wide genname gox t hA n hn with h | h
        · exact Or.inl h
        · exact Or.inr (Or.inl h)
      | true =>
        exact hcomp (by rw [isComponent_ident gox t b hT hb, hU])
    · refine hcomp ?_
      cases hg : gox.TagName with
      | Ident t => exact absurd ⟨t, hg⟩ hI
      | _ => simp [isComponent, hg]

/-! ## Lowering under another qualifier -/

theorem requalifyList_eq_map (g1 g2 : String) (l : List Expr) :
    requalifyList g1 g2 l = l.map (requalify g1 g2) := by
  induction l with
  | nil => rfl
  | cons x xs ih => simp [requalifyList, ih]

theorem renameIdent_self (g1 g2 : String) :
    renameIdent g1 g2 (Expr.Ident (NewIdent g1)) = Expr.Ident (NewIdent g2) := by
  simp [renameIdent, NewIdent]

theorem requalify_selector (g1 g2 name : String) :
    requalify g1 g2 (newSelectorExpr g1 name) = newSelectorExpr g2 name := by
  simp [newSelectorExpr, requalify, renameIdent, NewIdent]

theorem requalify_api_call (g1 g2 name : String) (args : List Expr) :
    requalify g1 g2 (newCallExpr (newSelectorExpr g1 name) args)
      = newCallExpr (newSelectorExpr g2 name) (args.map (requalify g1 g2)) := by
  rw [newCallExpr, requalify, requalify_selector, requalifyList_eq_map]
  rfl

theorem requalify_rhsOrTrue (g1 g2 : String) (rhs : Expr)
    (h : requalify g1 g2 rhs = rhs) : requalify g1 g2 (rhsOrTrue rhs) = rhsOrTrue rhs := by
  cases rhs
  case Nil => simp [rhsOrTrue, requalify]
  all_goals exact h

theorem requalify_propExpr (wide : Nat → Bool) (g1 g2 : String) (a : GoxAttrStmt)
    (hA : a.Lhs ≠ none) (h : requalify g1 g2 a.Rhs = a.Rhs) :
    requalify g1 g2 (propExpr wide g1 a) = propExpr wide g2 a := by
  have hr := requalify_rhsOrTrue g1 g2 a.Rhs h
  cases hl : a.Lhs with
  | none => exact absurd hl hA
  | some lhs =>
    cases he : mapGet eventMap lhs.Name with
    | some v =>
      simp only [propExpr, mapPropsBody_event wide _ a lhs v hl he, requalify,
        requalifyList, renameIdent_self, newSelectorExpr, hr]
    | none =>
      cases hp : mapGet attrMap lhs.Name with
      | some v =>
        simp only [propExpr, mapPropsBody_property wide _ a lhs v hl he hp,
          requalify_api_call, List.map_cons, List.map_nil, requalify, hr]
      | none =>
        simp only [propExpr, mapPropsBody_attribute wide _ a lhs hl he hp,
          requalify_api_call, List.map_cons, List.map_nil, requalify, hr]

theorem requalify_fieldExpr (g1 g2 : String) (a : GoxAttrStmt)
    (h : requalify g1 g2 a.Rhs = a.Rhs) :
    requalify g1 g2 (fieldExpr a) = fieldExpr a := by
  simp only [fieldExpr, requalify, requalify_rhsOrTrue g1 g2 a.Rhs h]

theorem requalify_filterMap_childArg (g1 g2 : String) (X : List Expr)
    (h : ∀ c ∈ X, requalify g1 g2 c = c) :
    (X.filterMap (childArg g1)).map (requalify g1 g2) = X.filterMap (childArg g2) := by
  induction X with
  | nil => rfl
  | cons c cs ih =>
    have hc := h c (by simp)
    have ih1 := ih (fun d hd => h d (by simp [hd]))
    cases c
    case BareWordsExpr value =>
      by_cases hv : strings.TrimSpace value = ""
      · simpa [List.filterMap_cons, childArg, hv] using ih1
      · simp [List.filterMap_cons, childArg, hv, requalify, requalifyList, ih1,
          renameIdent_self, newCallExpr, newSelectorExpr]
    case GoExpr x =>
      simp only [List.filterMap_cons, childArg, List.map_cons, requalify_api_call,
        List.map_nil, hc, ih1]
    all_goals
      simp only [List.filterMap_cons, childArg, List.map_cons, hc, ih1]

theorem map_requalify_fixed (g1 g2 : String) (X : List Expr)
    (h : ∀ c ∈ X, requalify g1 g2 c = c) : X.map (requalify g1 g2) = X := by
  induction X with
  | nil => rfl
  | cons c cs ih =>
    rw [List.map_cons, h c (by simp), ih (fun d hd => h d (by simp [hd]))]

theorem requalify_bodyText (g1 g2 : String) (X : List Expr)
    (h : ∀ c ∈ X, requalify g1 g2 c = c) :
    requalify g1 g2 (bodyText g1 X) = bodyText g2 X := by
  rw [bodyText, requalify_api_call, List.map_append, map_requalify_fixed g1 g2 X h]
  simp [bodyText, emptyStringLit, requalify]

/-- On well-formed input whose tag, children and attribute values hold no
selector qualified by `g1`, lowering under `g2` gives the result of lowering
under `g1` with every selector qualifier `g1` replaced by `g2`. -/
theorem goxToVecty_requalify (wide : Nat → Bool) (g1 g2 : String) (gox : GoxExpr)
    (hW : WellFormed gox) (hT : requalify g1 g2 gox.TagName = gox.TagName)
    (hX : ∀ c ∈ gox.X, requalify g1 g2 c = c)
    (hR : ∀ a ∈ gox.Attrs, requalify g1 g2 a.Rhs = a.Rhs) :
    ∃ (e1 e2 : Expr) (n1 n2 : GoxExpr),
      goxToVecty wide g1 gox = some (e1, n1) ∧
      goxToVecty wide g2 gox = some (e2, n2) ∧
      e2 = requalify g1 g2 e1 := by
  obtain ⟨hA, hN⟩ := hW
  have hprops : (gox.Attrs.map (propExpr wide g1)).map (requalify g1 g2)
      = gox.Attrs.map (propExpr wide g2) := by
    rw [List.map_map]
    exact List.map_congr_left (fun a ha =>
      requalify_propExpr wide g1 g2 a (hA a ha) (hR a ha))
  have hfields : (gox.Attrs.map fieldExpr).map (requalify g1 g2)
      = gox.Attrs.map fieldExpr := by
    rw [List.map_map]
    exact List.map_congr_left (fun a ha => requalify_fieldExpr g1 g2 a (hR a ha))
  have hchildren := requalify_filterMap_childArg g1 g2 gox.X hX
  have hbody := requalify_bodyText g1 g2 gox.X hX
  by_cases hC : ∃ fn lparen targs ellipsis rparen,
      gox.TagName = Expr.CallExpr fn lparen targs ellipsis rparen
  · obtain ⟨fn, lparen, targs, ellipsis, rparen, hTag⟩ := hC
    have hc : isComponent gox = some true := by simp [isComponent, hTag]
    rw [goxToVecty_component wide g1 gox hc, goxToVecty_component wide g2 gox hc]
    refine ⟨_, _, _, _,
      newComponent_call_eq g1 gox fn lparen targs ellipsis rparen hTag hA,
      newComponent_call_eq g2 gox fn lparen targs ellipsis rparen hTag hA, ?_⟩
    rw [hTag, requalify, requalifyList_eq_map] at hT
    simp only [Expr.CallExpr.injEq, and_true, true_and] at hT
    rw [requalify, requalifyList_eq_map, List.map_append, hT.1, hT.2]
    cases hE : gox.X.isEmpty <;> simp [hbody]
  · have hC1 : ∀ fn lparen targs ellipsis rparen,
        gox.TagName ≠ Expr.CallExpr fn lparen targs ellipsis rparen :=
      fun fn lparen targs ellipsis rparen h => hC ⟨fn, lparen, targs, ellipsis, rparen, h⟩
    have hcomp : isComponent gox = some true →
        ∃ (e1 e2 : Expr) (n1 n2 : GoxExpr),
          goxToVecty wide g1 gox = some (e1, n1) ∧
          goxToVecty wide g2 gox = some (e2, n2) ∧
          e2 = requalify g1 g2 e1 := by
      intro hc
      rw [goxToVecty_component wide g1 gox hc, goxToVecty_component wide g2 gox hc]
      refine ⟨_, _, _, _, newComponent_other_eq g1 gox hC1 hA,
        newComponent_other_eq g2 gox hC1 hA, ?_⟩
      rw [requalify_api_call]
      simp only [List.map_cons, List.map_nil, requalify, requalifyList_eq_map,
        List.map_append, hfields, hT]
      cases hE : gox.X.isEmpty <;>
        simp [requalify, requalifyList_eq_map, renameIdent_self,
          map_requalify_fixed g1 g2 gox.X hX, bodyText, newCallExpr, newSelectorExpr,
          emptyStringLit]
    by_cases hI : ∃ t, gox.TagName = Expr.Ident t
    · obtain ⟨t, hTag⟩ := hI
      obtain ⟨b, hb⟩ := index_zero_of_ne_empty t.Name (hN t hTag)
      cases hU : unicode.IsUpper b with
      | false =>
        refine ⟨_, _, _, _, goxToVecty_element_eq wide g1 gox t b hTag hb hU hA,
          goxToVecty_element_eq wide g2 gox t b hTag hb hU hA, ?_⟩
        rw [requalify_api_call]
        simp only [List.map_cons, List.map_append, requalify, hchildren]
        cases hE : gox.Attrs.isEmpty <;> simp [requalify_api_call, hprops]
      | true =>
        exact hcomp (by rw [isComponent_ident gox t b hTag hb, hU])
    · refine hcomp ?_
      cases hg : gox.TagName with
      | Ident t => exact absurd ⟨t, hg⟩ hI
      | _ => simp [isComponent, hg]

/-! ## The claims -/

/-- C1: a tag whose first character is lower-case is not always lowered to
`genname.Tag(...)`.  The tag `é` starts with the bytes `C3 A9`; the
classification reads the byte `C3` as the upper-case letter `Ã`, and the node
with the attribute `class="x"` and the child `hello` is lowered to
`genname.NewComponent(&é{class: "x", Body: genname.Text("", hello)})`. -/
theorem C1_lower_case_tag_lowered_as_component :
    ∀ (wide : Nat → Bool) (genname : String),
      "é".data.head? = some 'é' ∧ unicode.IsUpper ('é').toNat = false ∧
      go.index "é" 0 = some 0xC3 ∧ unicode.IsUpper 0xC3 = true ∧
      goxToVecty wide genname
          ⟨Expr.Ident ⟨1, "é"⟩,
            [⟨some ⟨3, "class"⟩, Expr.BasicLit 9 token.Token.STRING "\"x\""⟩],
            [Expr.BareWordsExpr "hello"]⟩
        = some (newCallExpr (newSelectorExpr genname "NewComponent")
            [Expr.UnaryExpr token.NoPos token.Token.AND
              (Expr.CompositeLit (Expr.Ident ⟨1, "é"⟩) token.NoPos
                [Expr.KeyValueExpr (Expr.Ident (NewIdent "class")) token.NoPos
                    (Expr.BasicLit 9 token.Token.STRING "\"x\""),
                  Expr.KeyValueExpr (Expr.Ident (NewIdent "Body")) token.NoPos
                    (newCallExpr (newSelectorExpr genname "Text")
                      [Expr.BasicLit token.NoPos token.Token.STRING "\"\"",
                        Expr.BareWordsExpr "hello"])]
                token.NoPos)],
          ⟨Expr.Ident ⟨1, "é"⟩,
            [⟨some ⟨3, "class"⟩, Expr.BasicLit 9 token.Token.STRING "\"x\""⟩],
            [Expr.BareWordsExpr "hello"]⟩) := by
  intro wide genname
  exact ⟨by decide, by decide, by decide, by decide, rfl⟩

/-- The children in the Element branch: on a node that is lowered through it
(identifier tag whose first byte is not upper-case, attributes with an `Lhs`),
the arguments of
the emitted `genname.Tag` call after the name and the optional markup are the
in-order filter-map of the children by `childArg`: blank bare words contribute
nothing, other bare words `genname.Text(c)`, a Go expression `genname.Value(e)`,
any other child itself.  Their number is `len(X)` minus the number of blank
bare-words children, and the children `["   ", expr, "hi"]` yield exactly
`genname.Value(expr), genname.Text("hi")`. -/
theorem element_children_are_filter_mapped (wide : Nat → Bool) (genname : String)
    (gox : GoxExpr) (t : Ident) (b : Nat) (hT : gox.TagName = Expr.Ident t)
    (hb : go.index t.Name 0 = some b) (hU : unicode.IsUpper b = false)
    (hA : ∀ a ∈ gox.Attrs, a.Lhs ≠ none) :
    ∃ (head children : List Expr) (node : GoxExpr),
      goxToVecty wide genname gox
        = some (newCallExpr (newSelectorExpr genname "Tag") (head ++ children), node) ∧
      head.length = (if gox.Attrs.isEmpty then 1 else 2) ∧
      children = gox.X.filterMap (childArg genname) ∧
      children.length = gox.X.length - (gox.X.filter isBlankText).length ∧
      (∀ value, childArg genname (Expr.BareWordsExpr value)
          = if strings.TrimSpace value = "" then none
            else some (newCallExpr (newSelectorExpr genname "Text")
              [Expr.BareWordsExpr value])) ∧
      (∀ e, childArg genname (Expr.GoExpr e)
          = some (newCallExpr (newSelectorExpr genname "Value") [Expr.GoExpr e])) ∧
      (∀ c, (∀ value, c ≠ Expr.BareWordsExpr value) → (∀ e, c ≠ Expr.GoExpr e) →
          childArg genname c = some c) ∧
      (∀ e, gox.X = [Expr.BareWordsExpr "   ", Expr.GoExpr e, Expr.BareWordsExpr "hi"] →
          children = [newCallExpr (newSelectorExpr genname "Value") [Expr.GoExpr e],
            newCallExpr (newSelectorExpr genname "Text") [Expr.BareWordsExpr "hi"]]) := by
  obtain ⟨mapped, _, _, _, hres⟩ := goxToVecty_element wide genname gox t b hT hb hU hA
  refine ⟨_, _, _, hres, ?_, rfl, ?_, ?_, ?_, ?_, ?_⟩
  · cases gox.Attrs <;> simp
  · have := length_filterMap_childArg genname gox.X
    omega
  · intro value
    rfl
  · intro e
    rfl
  · intro c h1 h2
    cases c <;> first | rfl | exact absurd rfl (h1 _) | exact absurd rfl (h2 _)
  · intro e hX
    rw [hX]
    have h1 : strings.TrimSpace "   " = "" := by decide
    have h2 : strings.TrimSpace "hi" ≠ "" := by decide
    simp [childArg, h1, h2]

/-- The children of the node `div`, `["   ", {x}, "hi"]`: the call is
`g.Tag("div", g.Value({x}), g.Text("hi"))`. -/
theorem element_children_example :
    ∃ (head : List Expr) (node : GoxExpr), head.length = 1 ∧
      goxToVecty (fun _ => true) "g"
          ⟨Expr.Ident ⟨1, "div"⟩, [],
            [Expr.BareWordsExpr "   ", Expr.GoExpr (Expr.Ident ⟨7, "x"⟩),
              Expr.BareWordsExpr "hi"]⟩
        = some (newCallExpr (newSelectorExpr "g" "Tag")
            (head ++
              [newCallExpr (newSelectorExpr "g" "Value")
                  [Expr.GoExpr (Expr.Ident ⟨7, "x"⟩)],
                newCallExpr (newSelectorExpr "g" "Text") [Expr.BareWordsExpr "hi"]]),
          node) := by
  obtain ⟨head, children, node, hres, hlen, _, _, _, _, _, hex⟩ :=
    element_children_are_filter_mapped (fun _ => true) "g"
      ⟨Expr.Ident ⟨1, "div"⟩, [],
        [Expr.BareWordsExpr "   ", Expr.GoExpr (Expr.Ident ⟨7, "x"⟩),
          Expr.BareWordsExpr "hi"]⟩
      ⟨1, "div"⟩ 0x64 rfl (by decide) (by decide) (by simp)
  rw [hex _ rfl] at hres
  exact ⟨head, node, by simpa using hlen, hres⟩

/-- C2: on a tag whose first character is lower-case the children are not
always filter-mapped into a `genname.Tag` call.  The tag `é` starts with the
bytes `C3 A9`; the classification reads the byte `C3` as the upper-case letter
`Ã`, and the node with the children `["   ", {x}, "hi"]` is lowered to
`genname.NewComponent(&é{Body: genname.Text("", "   ", {x}, "hi")})`: no
`genname.Tag` call is emitted, the blank child is kept, and no child is wrapped
in `genname.Value` or `genname.Text` of its own. -/
theorem C2_children_of_lower_case_tag_kept_in_body :
    ∀ (wide : Nat → Bool) (genname : String),
      "é".data.head? = some 'é' ∧ unicode.IsUpper ('é').toNat = false ∧
      go.index "é" 0 = some 0xC3 ∧ unicode.IsUpper 0xC3 = true ∧
      goxToVecty wide genname
          ⟨Expr.Ident ⟨1, "é"⟩, [],
            [Expr.BareWordsExpr "   ", Expr.GoExpr (Expr.Ident ⟨7, "x"⟩),
              Expr.BareWordsExpr "hi"]⟩
        = some (newCallExpr (newSelectorExpr genname "NewComponent")
            [Expr.UnaryExpr token.NoPos token.Token.AND
              (Expr.CompositeLit (Expr.Ident ⟨1, "é"⟩) token.NoPos
                [Expr.KeyValueExpr (Expr.Ident (NewIdent "Body")) token.NoPos
                    (newCallExpr (newSelectorExpr genname "Text")
                      [Expr.BasicLit token.NoPos token.Token.STRING "\"\"",
                        Expr.BareWordsExpr "   ", Expr.GoExpr (Expr.Ident ⟨7, "x"⟩),
                        Expr.BareWordsExpr "hi"])]
                token.NoPos)],
          ⟨Expr.Ident ⟨1, "é"⟩, [],
            [Expr.BareWordsExpr "   ", Expr.GoExpr (Expr.Ident ⟨7, "x"⟩),
              Expr.BareWordsExpr "hi"]⟩) ∧
      [Expr.BareWordsExpr "   ", Expr.GoExpr (Expr.Ident ⟨7, "x"⟩),
          Expr.BareWordsExpr "hi"].filterMap (childArg genname)
        = [newCallExpr (newSelectorExpr genname "Value") [Expr.GoExpr (Expr.Ident ⟨7, "x"⟩)],
          newCallExpr (newSelectorExpr genname "Text") [Expr.BareWordsExpr "hi"]] := by
  intro wide genname
  refine ⟨by decide, by decide, by decide, by decide, rfl, ?_⟩
  have h1 : strings.TrimSpace "   " = "" := by decide
  have h2 : strings.TrimSpace "hi" ≠ "" := by decide
  simp [childArg, h1, h2]

/-- C3: the Component branch is taken by a node whose tag is an identifier
with a lower-case first character and is no call expression.  The tag `é`
(first character `é`, lower-case; first byte `C3`) makes `isComponent` true,
`goxToVecty` hands the node to `newComponent`, and the result is
`genname.NewComponent(&é{})`, no `genname.Tag` call. -/
theorem C3_component_branch_on_lower_case_tag :
    ∀ (wide : Nat → Bool) (genname : String),
      "é".data.head? = some 'é' ∧ unicode.IsUpper ('é').toNat = false ∧
      isComponent ⟨Expr.Ident ⟨1, "é"⟩, [], []⟩ = some true ∧
      goxToVecty wide genname ⟨Expr.Ident ⟨1, "é"⟩, [], []⟩
        = newComponent genname ⟨Expr.Ident ⟨1, "é"⟩, [], []⟩ ∧
      goxToVecty wide genname ⟨Expr.Ident ⟨1, "é"⟩, [], []⟩
        = some (newCallExpr (newSelectorExpr genname "NewComponent")
            [Expr.UnaryExpr token.NoPos token.Token.AND
              (Expr.CompositeLit (Expr.Ident ⟨1, "é"⟩) token.NoPos [] token.NoPos)],
          ⟨Expr.Ident ⟨1, "é"⟩, [], []⟩) := by
  intro wide genname
  exact ⟨by decide, by decide, by decide, rfl, rfl⟩

/-- C4: a tag whose first character is upper-case is not always lowered to
`genname.NewComponent(&T{...})`.  The tag `Ḃutton` starts with the upper-case
letter U+1E02, whose bytes are `E1 B8 82`; the classification reads the byte
`E1` as the lower-case letter `á`, and the node is lowered to
`genname.Tag("Ḃutton")`. -/
theorem C4_upper_case_tag_lowered_as_element :
    ∀ (wide : Nat → Bool) (genname : String),
      "Ḃutton".data.head? = some (Char.ofNat 0x1E02) ∧
      go.index "Ḃutton" 0 = some 0xE1 ∧ unicode.IsUpper 0xE1 = false ∧
      goxToVecty wide genname ⟨Expr.Ident ⟨1, "Ḃutton"⟩, [], []⟩
        = some (newCallExpr (newSelectorExpr genname "Tag")
            [Expr.BasicLit token.NoPos token.Token.STRING
              (strconv.Quote wide "Ḃutton")],
          ⟨Expr.Ident ⟨1, "Ḃutton"⟩, [], []⟩) := by
  intro wide genname
  exact ⟨by decide, by decide, by decide, rfl⟩

/-- C7, as stated, fails: the node `Button` with the attribute
`onClick={handler}` and no children is lowered to
`g.NewComponent(&Button{onClick: handler})`; the value of the field is the
identifier `handler`, no `EventListener` literal. -/
theorem C7_counterexample_no_event_listener :
    goxToVecty (fun _ => true) "g"
        ⟨Expr.Ident ⟨1, "Button"⟩,
          [⟨some ⟨8, "onClick"⟩, Expr.Ident ⟨17, "handler"⟩⟩], []⟩
      = some (newCallExpr (newSelectorExpr "g" "NewComponent")
          [Expr.UnaryExpr token.NoPos token.Token.AND
            (Expr.CompositeLit (Expr.Ident ⟨1, "Button"⟩) token.NoPos
              [Expr.KeyValueExpr (Expr.Ident (NewIdent "onClick")) token.NoPos
                (Expr.Ident ⟨17, "handler"⟩)]
              token.NoPos)],
        ⟨Expr.Ident ⟨1, "Button"⟩,
          [⟨some ⟨8, "onClick"⟩, Expr.Ident ⟨17, "handler"⟩⟩], []⟩) ∧
    ¬ ∃ node, goxToVecty (fun _ => true) "g"
        ⟨Expr.Ident ⟨1, "Button"⟩,
          [⟨some ⟨8, "onClick"⟩, Expr.Ident ⟨17, "handler"⟩⟩], []⟩
      = some (newCallExpr (newSelectorExpr "g" "NewComponent")
          [Expr.UnaryExpr token.NoPos token.Token.AND
            (Expr.CompositeLit (Expr.Ident ⟨1, "Button"⟩) token.NoPos
              [Expr.KeyValueExpr (Expr.Ident (NewIdent "onClick")) token.NoPos
                (Expr.UnaryExpr token.NoPos token.Token.AND
                  (Expr.CompositeLit (newSelectorExpr "g" "EventListener") token.NoPos
                    [Expr.KeyValueExpr (Expr.Ident (NewIdent "Name")) token.NoPos
                        (Expr.BasicLit token.NoPos token.Token.STRING "\"click\""),
                      Expr.KeyValueExpr (Expr.Ident (NewIdent "Listener")) token.NoPos
                        (Expr.Ident ⟨17, "handler"⟩)]
                    token.NoPos))]
              token.NoPos)],
        node) := by
  have hres : goxToVecty (fun _ => true) "g"
        ⟨Expr.Ident ⟨1, "Button"⟩,
          [⟨some ⟨8, "onClick"⟩, Expr.Ident ⟨17, "handler"⟩⟩], []⟩
      = some (newCallExpr (newSelectorExpr "g" "NewComponent")
          [Expr.UnaryExpr token.NoPos token.Token.AND
            (Expr.CompositeLit (Expr.Ident ⟨1, "Button"⟩) token.NoPos
              [Expr.KeyValueExpr (Expr.Ident (NewIdent "onClick")) token.NoPos
                (Expr.Ident ⟨17, "handler"⟩)]
              token.NoPos)],
        ⟨Expr.Ident ⟨1, "Button"⟩,
          [⟨some ⟨8, "onClick"⟩, Expr.Ident ⟨17, "handler"⟩⟩], []⟩) := rfl
  refine ⟨hres, ?_⟩
  rintro ⟨node, h⟩
  rw [hres] at h
  simp [newCallExpr] at h

/-- C7, amended: the node `Button` with the one attribute `onClick` and no
children is lowered to `genname.NewComponent(&Button{onClick: value})`, where
`value` is the attribute's own value (the identifier `true` when it has none):
the field name stays `onClick`, and neither `eventMap` nor an `EventListener`
literal takes part. -/
theorem C7_component_field_is_attribute_value :
    ∀ (wide : Nat → Bool) (genname : String) (p q : token.Pos) (handler : Expr),
      goxToVecty wide genname
          ⟨Expr.Ident ⟨p, "Button"⟩, [⟨some ⟨q, "onClick"⟩, handler⟩], []⟩
        = some (newCallExpr (newSelectorExpr genname "NewComponent")
            [Expr.UnaryExpr token.NoPos token.Token.AND
              (Expr.CompositeLit (Expr.Ident ⟨p, "Button"⟩) token.NoPos
                [Expr.KeyValueExpr (Expr.Ident (NewIdent "onClick")) token.NoPos
                  (rhsOrTrue handler)]
                token.NoPos)],
          ⟨Expr.Ident ⟨p, "Button"⟩,
            [⟨some ⟨q, "onClick"⟩, rhsOrTrue handler⟩], []⟩) := by
  intro wide genname p q handler
  have hc : isComponent ⟨Expr.Ident ⟨p, "Button"⟩, [⟨some ⟨q, "onClick"⟩, handler⟩], []⟩
      = some true :=
    isComponent_ident _ ⟨p, "Button"⟩ 0x42 rfl
      (show go.index "Button" 0 = some 0x42 by decide)
  rw [goxToVecty_component wide genname _ hc]
  simp [newComponent, List.enum, newComponentBody, defaultRhs_Lhs, defaultRhs_Rhs,
    rhsOrTrue_defaultRhs]

/-- C8: for an attribute whose name is a key of `eventMap` (in a list of
attributes that all have an `Lhs`), `mapProps` emits at the attribute's index
`&genname.EventListener{Name: lit, Listener: value}`: the address of a
composite literal of type `genname.EventListener` with exactly the two
key-value fields `Name` and `Listener`, in this order, where `lit` is the
string literal `strconv.Quote(eventMap[name])` and `value` is the attribute's
value, the identifier `true` when it has none.  `eventMap[name]` is the value
the table has for the name, and neither it nor its quoted text is the
attribute's name. -/
theorem C8_event_attribute_becomes_listener (wide : Nat → Bool) (genname : String)
    (attrs : List GoxAttrStmt) (i : Nat) (a : GoxAttrStmt) (lhs : Ident)
    (hA : ∀ b ∈ attrs, b.Lhs ≠ none) (hi : attrs[i]? = some a)
    (hl : a.Lhs = some lhs) (hk : lhs.Name ∈ eventMap.map Prod.fst) :
    ∃ (mapped : List Expr) (attrs1 : List GoxAttrStmt),
      mapProps wide genname attrs = some (mapped, attrs1) ∧
      mapped.length = attrs.length ∧
      mapped[i]? = some (Expr.UnaryExpr token.NoPos token.Token.AND
        (Expr.CompositeLit (newSelectorExpr genname "EventListener") token.NoPos
          [ Expr.KeyValueExpr (Expr.Ident (NewIdent "Name")) token.NoPos
              (Expr.BasicLit token.NoPos token.Token.STRING
                (strconv.Quote wide (mapIndex eventMap lhs.Name))),
            Expr.KeyValueExpr (Expr.Ident (NewIdent "Listener")) token.NoPos
              (rhsOrTrue a.Rhs) ]
          token.NoPos)) ∧
      (a.Rhs = Expr.Nil → rhsOrTrue a.Rhs = Expr.Ident (NewIdent "true")) ∧
      (a.Rhs ≠ Expr.Nil → rhsOrTrue a.Rhs = a.Rhs) ∧
      (lhs.Name, mapIndex eventMap lhs.Name) ∈ eventMap ∧
      mapIndex eventMap lhs.Name ≠ lhs.Name ∧
      strconv.Quote wide (mapIndex eventMap lhs.Name) ≠ strconv.Quote wide lhs.Name := by
  obtain ⟨v, hv, hmem⟩ := mapGet_of_mem_keys eventMap lhs.Name hk
  have hidx := mapIndex_of_mapGet eventMap lhs.Name v hv
  obtain ⟨mapped, hm, hlen, hat⟩ := mapProps_at wide genname attrs i a _ hA hi
    (mapPropsBody_event wide genname a lhs v hl hv)
  have hne : v ≠ lhs.Name := (eventMap_values _ hmem).2
  refine ⟨mapped, _, hm, hlen, hat, ?_, rhsOrTrue_of_ne_nil a.Rhs, ?_, ?_, ?_⟩
  · intro h
    rw [h]
    rfl
  · rw [hidx]
    exact hmem
  · rw [hidx]
    exact hne
  · rw [hidx]
    exact fun h => hne (strconv.Quote_injective wide _ _ h)

/-- C8 at the attributes `[id="a", onClick={handler}]`: the second expression
is `&g.EventListener{Name: "click", Listener: handler}`. -/
theorem C8_event_attribute_becomes_listener_witness :
    ∃ (mapped : List Expr) (attrs1 : List GoxAttrStmt),
      mapProps (fun _ => true) "g"
          [⟨some ⟨2, "id"⟩, Expr.BasicLit 5 token.Token.STRING "\"a\""⟩,
            ⟨some ⟨9, "onClick"⟩, Expr.Ident ⟨18, "handler"⟩⟩]
        = some (mapped, attrs1) ∧
      mapped[1]? = some (Expr.UnaryExpr token.NoPos token.Token.AND
        (Expr.CompositeLit (newSelectorExpr "g" "EventListener") token.NoPos
          [ Expr.KeyValueExpr (Expr.Ident (NewIdent "Name")) token.NoPos
              (Expr.BasicLit token.NoPos token.Token.STRING "\"click\""),
            Expr.KeyValueExpr (Expr.Ident (NewIdent "Listener")) token.NoPos
              (Expr.Ident ⟨18, "handler"⟩) ]
          token.NoPos)) := by
  obtain ⟨mapped, attrs1, hm, _, hat, _⟩ :=
    C8_event_attribute_becomes_listener (fun _ => true) "g"
      [⟨some ⟨2, "id"⟩, Expr.BasicLit 5 token.Token.STRING "\"a\""⟩,
        ⟨some ⟨9, "onClick"⟩, Expr.Ident ⟨18, "handler"⟩⟩]
      1 ⟨some ⟨9, "onClick"⟩, Expr.Ident ⟨18, "handler"⟩⟩ ⟨9, "onClick"⟩
      (by simp) rfl rfl (by decide)
  exact ⟨mapped, attrs1, hm, hat⟩

/-- C12, as stated, fails: on an identifier tag whose name is empty the index
`Name[0]` is out of range and `goxToVecty` panics. -/
theorem C12_counterexample_empty_name :
    (∀ a ∈ ([] : List GoxAttrStmt), a.Lhs ≠ none) ∧
    goxToVecty (fun _ => true) "g" ⟨Expr.Ident ⟨1, ""⟩, [], []⟩ = none := by
  refine ⟨by simp, rfl⟩

/-- C12, amended: on a node whose attributes all have an `Lhs` and whose tag,
when it is an identifier, has a name that is not empty, `goxToVecty` returns an
expression: the index `Name[0]` is in range, and the assertion
`TagName.(*ast.Ident)` of the Element branch is only reached on an identifier
tag. -/
theorem C12_no_failure_on_well_formed_input (wide : Nat → Bool) (genname : String)
    (gox : GoxExpr) (hW : WellFormed gox) :
    ∃ (e : Expr) (node : GoxExpr), goxToVecty wide genname gox = some (e, node) := by
  obtain ⟨hA, hN⟩ := hW
  by_cases hI : ∃ t, gox.TagName = Expr.Ident t
  · obtain ⟨t, hT⟩ := hI
    obtain ⟨b, hb⟩ := index_zero_of_ne_empty t.Name (hN t hT)
    cases hU : unicode.IsUpper b with
    | false => exact ⟨_, _, goxToVecty_element_eq wide genname gox t b hT hb hU hA⟩
    | true =>
      have hc : isComponent gox = some true := by
        rw [isComponent_ident gox t b hT hb, hU]
      rw [goxToVecty_component wide genname gox hc]
      exact ⟨_, _, newComponent_other_eq genname gox (by simp [hT]) hA⟩
  · have hc : isComponent gox = some true := by
      cases hg : gox.TagName with
      | Ident t => exact absurd ⟨t, hg⟩ hI
      | _ => simp [isComponent, hg]
    rw [goxToVecty_component wide genname gox hc]
    by_cases hC : ∃ fn lparen targs ellipsis rparen,
        gox.TagName = Expr.CallExpr fn lparen targs ellipsis rparen
    · obtain ⟨fn, lparen, targs, ellipsis, rparen, hT⟩ := hC
      exact ⟨_, _, newComponent_call_eq genname gox fn lparen targs ellipsis rparen hT hA⟩
    · exact ⟨_, _, newComponent_other_eq genname gox
        (fun fn lparen targs ellipsis rparen h => hC ⟨fn, lparen, targs, ellipsis, rparen, h⟩)
        hA⟩

/-- C12, amended, at `<input disabled/>`: the node is well formed and is
lowered. -/
theorem C12_no_failure_on_well_formed_input_witness :
    WellFormed ⟨Expr.Ident ⟨1, "input"⟩, [⟨some ⟨7, "disabled"⟩, Expr.Nil⟩], []⟩ ∧
    ∃ (e : Expr) (node : GoxExpr),
      goxToVecty (fun _ => true) "g"
          ⟨Expr.Ident ⟨1, "input"⟩, [⟨some ⟨7, "disabled"⟩, Expr.Nil⟩], []⟩
        = some (e, node) :=
  have hW : WellFormed
      ⟨Expr.Ident ⟨1, "input"⟩, [⟨some ⟨7, "disabled"⟩, Expr.Nil⟩], []⟩ := by
    refine ⟨by simp, ?_⟩
    intro t ht
    simp only [Expr.Ident.injEq] at ht
    rw [← ht]
    decide
  ⟨hW, C12_no_failure_on_well_formed_input (fun _ => true) "g" _ hW⟩

/-- C14: on attributes that all have an `Lhs`, one run of `mapProps` leaves the
list with every absent `Rhs` replaced by the identifier `true` and every other
`Rhs` and every `Lhs` as it was; a second run on that list leaves it unchanged
and returns the same expressions.  The same holds of `newComponent` for every
tag and every list of children: run on the list left behind it returns the same
expression and leaves the same node, and where the tag is no call expression or
there are no children, a second run on the node left behind does so too. -/
theorem C14_defaulting_is_idempotent (wide : Nat → Bool) (genname : String)
    (attrs : List GoxAttrStmt) (hA : ∀ a ∈ attrs, a.Lhs ≠ none) :
    ∃ (mapped : List Expr) (left : List GoxAttrStmt),
      mapProps wide genname attrs = some (mapped, left) ∧
      left.length = attrs.length ∧
      (∀ (i : Nat) (a : GoxAttrStmt), attrs[i]? = some a →
        left[i]? = some ⟨a.Lhs, rhsOrTrue a.Rhs⟩) ∧
      rhsOrTrue Expr.Nil = Expr.Ident (NewIdent "true") ∧
      (∀ rhs, rhs ≠ Expr.Nil → rhsOrTrue rhs = rhs) ∧
      mapProps wide genname left = some (mapped, left) ∧
      (∀ (tag : Expr) (X : List Expr), ∃ (e : Expr) (node : GoxExpr),
        newComponent genname ⟨tag, attrs, X⟩ = some (e, node) ∧
        node.Attrs = left ∧
        newComponent genname ⟨tag, left, X⟩ = some (e, node) ∧
        ((∀ fn lparen targs ellipsis rparen,
            tag ≠ Expr.CallExpr fn lparen targs ellipsis rparen) ∨ X = [] →
          newComponent genname node = some (e, node))) := by
  have hL := defaulted_Lhs attrs hA
  have hmm : (attrs.map defaultRhs).map defaultRhs = attrs.map defaultRhs := by
    simp [List.map_map, Function.comp_def, defaultRhs_idem]
  have hmp : (attrs.map defaultRhs).map (propExpr wide genname)
      = attrs.map (propExpr wide genname) := by
    simp [List.map_map, Function.comp_def, propExpr_defaultRhs]
  have hmf : (attrs.map defaultRhs).map fieldExpr = attrs.map fieldExpr := by
    simp [List.map_map, Function.comp_def, fieldExpr_defaultRhs]
  refine ⟨attrs.map (propExpr wide genname), attrs.map defaultRhs,
    mapProps_eq_map wide genname attrs hA, by simp,
    getElem?_map_defaultRhs attrs, rfl, rhsOrTrue_of_ne_nil, ?_, ?_⟩
  · rw [mapProps_eq_map wide genname _ hL, hmm, hmp]
  · intro tag X
    by_cases hC : ∃ fn lparen targs ellipsis rparen,
        tag = Expr.CallExpr fn lparen targs ellipsis rparen
    · obtain ⟨fn, lparen, targs, ellipsis, rparen, hT⟩ := hC
      have h1 := newComponent_call_eq genname ⟨tag, attrs, X⟩ fn lparen targs ellipsis
        rparen hT hA
      have h2 := newComponent_call_eq genname ⟨tag, attrs.map defaultRhs, X⟩ fn lparen
        targs ellipsis rparen hT hL
      simp only [hmm] at h1 h2
      refine ⟨_, _, h1, rfl, h2, ?_⟩
      intro hor
      rcases hor with hno | hX
      · exact absurd hT (hno _ _ _ _ _)
      · subst hX
        have h3 := newComponent_call_eq genname
          ⟨Expr.CallExpr fn lparen (targs ++ []) ellipsis rparen,
            attrs.map defaultRhs, []⟩ fn lparen (targs ++ []) ellipsis rparen rfl hL
        simp only [hmm, List.isEmpty_nil, if_true, List.append_nil] at h3 ⊢
        exact h3
    · have hC1 : ∀ fn lparen targs ellipsis rparen,
          tag ≠ Expr.CallExpr fn lparen targs ellipsis rparen :=
        fun fn lparen targs ellipsis rparen h => hC ⟨fn, lparen, targs, ellipsis, rparen, h⟩
      have h1 := newComponent_other_eq genname ⟨tag, attrs, X⟩ hC1 hA
      have h2 := newComponent_other_eq genname ⟨tag, attrs.map defaultRhs, X⟩ hC1 hL
      simp only [hmm, hmf] at h1 h2
      exact ⟨_, _, h1, rfl, h2, fun _ => h2⟩

/-- C14 at the attributes `[hidden, id="a"]`: the list left behind is
`[hidden=true, id="a"]`, and a second run of `mapProps` leaves it as it is. -/
theorem C14_defaulting_is_idempotent_witness :
    ∃ (mapped : List Expr),
      mapProps (fun _ => true) "g"
          [⟨some ⟨2, "hidden"⟩, Expr.Nil⟩,
            ⟨some ⟨9, "id"⟩, Expr.BasicLit 12 token.Token.STRING "\"a\""⟩]
        = some (mapped,
          [⟨some ⟨2, "hidden"⟩, Expr.Ident (NewIdent "true")⟩,
            ⟨some ⟨9, "id"⟩, Expr.BasicLit 12 token.Token.STRING "\"a\""⟩]) ∧
      mapProps (fun _ => true) "g"
          [⟨some ⟨2, "hidden"⟩, Expr.Ident (NewIdent "true")⟩,
            ⟨some ⟨9, "id"⟩, Expr.BasicLit 12 token.Token.STRING "\"a\""⟩]
        = some (mapped,
          [⟨some ⟨2, "hidden"⟩, Expr.Ident (NewIdent "true")⟩,
            ⟨some ⟨9, "id"⟩, Expr.BasicLit 12 token.Token.STRING "\"a\""⟩]) := by
  obtain ⟨mapped, left, h1, _, hidx, _, _, h2, _⟩ :=
    C14_defaulting_is_idempotent (fun _ => true) "g"
      [⟨some ⟨2, "hidden"⟩, Expr.Nil⟩,
        ⟨some ⟨9, "id"⟩, Expr.BasicLit 12 token.Token.STRING "\"a\""⟩]
      (by simp)
  have hleft : left = [⟨some ⟨2, "hidden"⟩, Expr.Ident (NewIdent "true")⟩,
      ⟨some ⟨9, "id"⟩, Expr.BasicLit 12 token.Token.STRING "\"a\""⟩] := by
    have h3 : mapProps (fun _ => true) "g"
        [⟨some ⟨2, "hidden"⟩, Expr.Nil⟩,
          ⟨some ⟨9, "id"⟩, Expr.BasicLit 12 token.Token.STRING "\"a\""⟩]
        = some (_, [⟨some ⟨2, "hidden"⟩, Expr.Ident (NewIdent "true")⟩,
          ⟨some ⟨9, "id"⟩, Expr.BasicLit 12 token.Token.STRING "\"a\""⟩]) := rfl
    rw [h1] at h3
    simp only [Option.some.injEq, Prod.mk.injEq] at h3
    exact h3.2
  rw [hleft] at h1 h2
  exact ⟨mapped, h1, h2⟩

/-- C15, as stated, fails: lowering `Factory(x)` with the child `hi` leaves the
node with the tag `Factory(x, g.Text("", hi))`; the argument list of the tag
has changed. -/
theorem C15_counterexample_call_tag_mutated :
    goxToVecty (fun _ => true) "g"
        ⟨Expr.CallExpr (Expr.Ident ⟨1, "Factory"⟩) 8 [Expr.Ident ⟨9, "x"⟩] 0 10,
          [], [Expr.BareWordsExpr "hi"]⟩
      = some (Expr.CallExpr (Expr.Ident ⟨1, "Factory"⟩) 8
          [Expr.Ident ⟨9, "x"⟩,
            newCallExpr (newSelectorExpr "g" "Text")
              [Expr.BasicLit token.NoPos token.Token.STRING "\"\"",
                Expr.BareWordsExpr "hi"]] 0 10,
        ⟨Expr.CallExpr (Expr.Ident ⟨1, "Factory"⟩) 8
          [Expr.Ident ⟨9, "x"⟩,
            newCallExpr (newSelectorExpr "g" "Text")
              [Expr.BasicLit token.NoPos token.Token.STRING "\"\"",
                Expr.BareWordsExpr "hi"]] 0 10,
          [], [Expr.BareWordsExpr "hi"]⟩) ∧
    Expr.CallExpr (Expr.Ident ⟨1, "Factory"⟩) 8
        [Expr.Ident ⟨9, "x"⟩,
          newCallExpr (newSelectorExpr "g" "Text")
            [Expr.BasicLit token.NoPos token.Token.STRING "\"\"",
              Expr.BareWordsExpr "hi"]] 0 10
      ≠ Expr.CallExpr (Expr.Ident ⟨1, "Factory"⟩) 8 [Expr.Ident ⟨9, "x"⟩] 0 10 := by
  refine ⟨rfl, ?_⟩
  intro h
  simp at h

/-- C15, amended: on well-formed input `goxToVecty` leaves the node with its
children as they were, its attributes with every `Lhs` as it was, every absent
`Rhs` replaced by the identifier `true` and every other `Rhs` as it was, and
its tag as it was unless the tag is a call expression and there are children:
then the tag's own call has gained the trailing argument
`genname.Text("", children...)`, and that call is the result. -/
theorem C15_frame_of_lowering (wide : Nat → Bool) (genname : String)
    (gox : GoxExpr) (hW : WellFormed gox) :
    ∃ (e : Expr) (node : GoxExpr),
      goxToVecty wide genname gox = some (e, node) ∧
      node.X = gox.X ∧
      node.Attrs.length = gox.Attrs.length ∧
      (∀ (i : Nat) (a : GoxAttrStmt), gox.Attrs[i]? = some a →
        node.Attrs[i]? = some ⟨a.Lhs, rhsOrTrue a.Rhs⟩) ∧
      rhsOrTrue Expr.Nil = Expr.Ident (NewIdent "true") ∧
      (∀ rhs, rhs ≠ Expr.Nil → rhsOrTrue rhs = rhs) ∧
      ((∀ fn lparen targs ellipsis rparen,
          gox.TagName ≠ Expr.CallExpr fn lparen targs ellipsis rparen) →
        node.TagName = gox.TagName) ∧
      (gox.X = [] → node.TagName = gox.TagName) ∧
      (∀ fn lparen targs ellipsis rparen,
        gox.TagName = Expr.CallExpr fn lparen targs ellipsis rparen → gox.X ≠ [] →
        node.TagName = Expr.CallExpr fn lparen
          (targs ++ [newCallExpr (newSelectorExpr genname "Text")
            (Expr.BasicLit token.NoPos token.Token.STRING "\"\"" :: gox.X)])
          ellipsis rparen ∧
        e = node.TagName) := by
  obtain ⟨e, tag, hres, htag⟩ := goxToVecty_node wide genname gox hW
  refine ⟨e, _, hres, rfl, by simp, getElem?_map_defaultRhs gox.Attrs, rfl,
    rhsOrTrue_of_ne_nil, ?_, ?_, ?_⟩
  · intro hno
    rcases htag with ⟨h, _⟩ | ⟨fn, lparen, targs, ellipsis, rparen, hT, _⟩
    · exact h
    · exact absurd hT (hno _ _ _ _ _)
  · intro hX
    rcases htag with ⟨h, _⟩ | ⟨fn, lparen, targs, ellipsis, rparen, _, hne, _⟩
    · exact h
    · exact absurd hX hne
  · intro fn lparen targs ellipsis rparen hT hX
    rcases htag with ⟨_, hno | hX0⟩ | ⟨fn1, lparen1, targs1, ellipsis1, rparen1, hT1, _, h1, h2⟩
    · exact absurd hT (hno _ _ _ _ _)
    · exact absurd hX0 hX
    · rw [hT] at hT1
      simp only [Expr.CallExpr.injEq] at hT1
      obtain ⟨rfl, rfl, rfl, rfl, rfl⟩ := hT1
      exact ⟨h1, h2⟩

/-- C15, amended, at `<input disabled/>`: the node left behind is
`<input disabled={true}/>`. -/
theorem C15_frame_of_lowering_witness :
    ∃ (e : Expr) (node : GoxExpr),
      goxToVecty (fun _ => true) "g"
          ⟨Expr.Ident ⟨1, "input"⟩, [⟨some ⟨7, "disabled"⟩, Expr.Nil⟩], []⟩
        = some (e, node) ∧
      node.TagName = Expr.Ident ⟨1, "input"⟩ ∧ node.X = [] ∧
      node.Attrs[0]? = some ⟨some ⟨7, "disabled"⟩, Expr.Ident (NewIdent "true")⟩ := by
  have hW : WellFormed
      ⟨Expr.Ident ⟨1, "input"⟩, [⟨some ⟨7, "disabled"⟩, Expr.Nil⟩], []⟩ := by
    refine ⟨by simp, ?_⟩
    intro t ht
    simp only [Expr.Ident.injEq] at ht
    rw [← ht]
    decide
  obtain ⟨e, node, hres, hX, _, hidx, _, _, _, htag, _⟩ :=
    C15_frame_of_lowering (fun _ => true) "g"
      ⟨Expr.Ident ⟨1, "input"⟩, [⟨some ⟨7, "disabled"⟩, Expr.Nil⟩], []⟩ hW
  exact ⟨e, node, hres, htag rfl, hX, hidx 0 _ rfl⟩


/-- C16, as stated, fails: on the call-expression tag `g.Factory()` with the
opaque child `hi`, lowering under `h` gives `g.Factory(h.Text("", hi))`, while
lowering under `g` with every selector qualifier `g` replaced by `h` gives
`h.Factory(h.Text("", hi))`. -/
theorem C16_counterexample_qualified_tag :
    (∀ c ∈ [Expr.BareWordsExpr "hi"], requalify "g" "h" c = c) ∧
    goxToVecty (fun _ => true) "g"
        ⟨Expr.CallExpr (Expr.SelectorExpr (Expr.Ident ⟨1, "g"⟩) ⟨3, "Factory"⟩) 10 [] 0 11,
          [], [Expr.BareWordsExpr "hi"]⟩
      = some (Expr.CallExpr (Expr.SelectorExpr (Expr.Ident ⟨1, "g"⟩) ⟨3, "Factory"⟩) 10
          [bodyText "g" [Expr.BareWordsExpr "hi"]] 0 11,
        ⟨Expr.CallExpr (Expr.SelectorExpr (Expr.Ident ⟨1, "g"⟩) ⟨3, "Factory"⟩) 10
          [bodyText "g" [Expr.BareWordsExpr "hi"]] 0 11, [], [Expr.BareWordsExpr "hi"]⟩) ∧
    goxToVecty (fun _ => true) "h"
        ⟨Expr.CallExpr (Expr.SelectorExpr (Expr.Ident ⟨1, "g"⟩) ⟨3, "Factory"⟩) 10 [] 0 11,
          [], [Expr.BareWordsExpr "hi"]⟩
      = some (Expr.CallExpr (Expr.SelectorExpr (Expr.Ident ⟨1, "g"⟩) ⟨3, "Factory"⟩) 10
          [bodyText "h" [Expr.BareWordsExpr "hi"]] 0 11,
        ⟨Expr.CallExpr (Expr.SelectorExpr (Expr.Ident ⟨1, "g"⟩) ⟨3, "Factory"⟩) 10
          [bodyText "h" [Expr.BareWordsExpr "hi"]] 0 11, [], [Expr.BareWordsExpr "hi"]⟩) ∧
    Expr.CallExpr (Expr.SelectorExpr (Expr.Ident ⟨1, "g"⟩) ⟨3, "Factory"⟩) 10
        [bodyText "h" [Expr.BareWordsExpr "hi"]] 0 11
      ≠ requalify "g" "h"
        (Expr.CallExpr (Expr.SelectorExpr (Expr.Ident ⟨1, "g"⟩) ⟨3, "Factory"⟩) 10
          [bodyText "g" [Expr.BareWordsExpr "hi"]] 0 11) := by
  refine ⟨by simp [requalify], rfl, rfl, ?_⟩
  intro h
  simp [requalify, requalifyList, renameIdent] at h

/-- C16, amended: on well-formed input, every selector expression in the
result either is taken over from the input or is `genname.name` for a name of
the runtime API (`Tag`, `Markup`, `Text`, `Value`, `Property`, `Attribute`,
`EventListener`, `NewComponent`), its `X` the identifier `genname`; and when
the tag, the children and the attribute values hold no selector qualified by
`genname`, lowering under `g2` gives this result with every selector qualifier
`genname` replaced by `g2`. -/
theorem C16_selectors_are_qualified (wide : Nat → Bool) (genname : String)
    (gox : GoxExpr) (hW : WellFormed gox) :
    ∃ (e : Expr) (node : GoxExpr), goxToVecty wide genname gox = some (e, node) ∧
      (∀ n ∈ nodes e, ∀ x sel, n = Expr.SelectorExpr x sel →
        (x = Expr.Ident (NewIdent genname) ∧ ∃ name ∈ apiNames, sel = NewIdent name) ∨
          FromInput gox n) ∧
      (∀ name, newSelectorExpr genname name
        = Expr.SelectorExpr (Expr.Ident ⟨token.NoPos, genname⟩) ⟨token.NoPos, name⟩) ∧
      (∀ g2, requalify genname g2 gox.TagName = gox.TagName →
        (∀ c ∈ gox.X, requalify genname g2 c = c) →
        (∀ a ∈ gox.Attrs, requalify genname g2 a.Rhs = a.Rhs) →
        ∃ (e2 : Expr) (node2 : GoxExpr),
          goxToVecty wide g2 gox = some (e2, node2) ∧ e2 = requalify genname g2 e) := by
  obtain ⟨e, node, hres, hprov⟩ := goxToVecty_provenance wide genname gox hW
  refine ⟨e, node, hres, ?_, fun _ => rfl, ?_⟩
  · intro n hn x sel hsel
    rcases hprov n hn with h | h | ⟨h, fn, lparen, targs, args, ellipsis, rparen, _, he⟩
    · exact Or.inl (h.2 x sel hsel)
    · exact Or.inr h
    · rw [h, he] at hsel
      cases hsel
  · intro g2 hT hX hR
    obtain ⟨e1, e2, n1, n2, h1, h2, h12⟩ := goxToVecty_requalify wide genname g2 gox hW hT hX hR
    rw [hres] at h1
    simp only [Option.some.injEq, Prod.mk.injEq] at h1
    rw [← h1.1] at h12
    exact ⟨e2, n2, h2, h12⟩

/-- C16, amended, at `<div class="x">hello</div>`: lowering under `h` is
lowering under `g` with the qualifier `g` replaced by `h`. -/
theorem C16_selectors_are_qualified_witness :
    ∃ (e e2 : Expr) (node node2 : GoxExpr),
      goxToVecty (fun _ => true) "g"
          ⟨Expr.Ident ⟨1, "div"⟩,
            [⟨some ⟨5, "class"⟩, Expr.BasicLit 11 token.Token.STRING "\"x\""⟩],
            [Expr.BareWordsExpr "hello"]⟩
        = some (e, node) ∧
      goxToVecty (fun _ => true) "h"
          ⟨Expr.Ident ⟨1, "div"⟩,
            [⟨some ⟨5, "class"⟩, Expr.BasicLit 11 token.Token.STRING "\"x\""⟩],
            [Expr.BareWordsExpr "hello"]⟩
        = some (e2, node2) ∧
      e2 = requalify "g" "h" e := by
  have hW : WellFormed
      ⟨Expr.Ident ⟨1, "div"⟩,
        [⟨some ⟨5, "class"⟩, Expr.BasicLit 11 token.Token.STRING "\"x\""⟩],
        [Expr.BareWordsExpr "hello"]⟩ := by
    refine ⟨by simp, ?_⟩
    intro t ht
    simp only [Expr.Ident.injEq] at ht
    rw [← ht]
    decide
  obtain ⟨e, node, hres, _, _, hre⟩ :=
    C16_selectors_are_qualified (fun _ => true) "g" _ hW
  obtain ⟨e2, node2, h2, h12⟩ := hre "h" (by simp [requalify]) (by simp [requalify])
    (by simp [requalify])
  exact ⟨e, e2, node, node2, hres, h2, h12⟩

/-- C17, as stated, fails: in the result of lowering `Button`, written at
position 1, the type of the struct literal is the tag itself, a node whose
position is 1 and not `token.NoPos`. -/
theorem C17_counterexample_tag_position :
    goxToVecty (fun _ => true) "g" ⟨Expr.Ident ⟨1, "Button"⟩, [], []⟩
      = some (newCallExpr (newSelectorExpr "g" "NewComponent")
          [Expr.UnaryExpr token.NoPos token.Token.AND
            (Expr.CompositeLit (Expr.Ident ⟨1, "Button"⟩) token.NoPos [] token.NoPos)],
        ⟨Expr.Ident ⟨1, "Button"⟩, [], []⟩) ∧
    ¬ ∀ n ∈ nodes (newCallExpr (newSelectorExpr "g" "NewComponent")
          [Expr.UnaryExpr token.NoPos token.Token.AND
            (Expr.CompositeLit (Expr.Ident ⟨1, "Button"⟩) token.NoPos [] token.NoPos)]),
        ∀ p ∈ ownPositions n, p = token.NoPos := by
  refine ⟨rfl, ?_⟩
  intro h
  have h1 := h (Expr.Ident ⟨1, "Button"⟩)
    (by simp [nodes, nodesList, newCallExpr, newSelectorExpr]) 1 (by simp [ownPositions])
  simp [token.NoPos] at h1

/-- C17, amended: on well-formed input, every node of the result is a node
the pass has built, whose position fields all are `token.NoPos`, or a node
taken over from the input (a node of the tag, of a child or of an attribute
value), which keeps its positions, or, on a call-expression tag, the result
itself: the tag's own call, with the positions of the tag and its argument list
extended.  So no node that the pass builds carries a position, every position
in the result is one of the input, and when no node of the input carries a
position, no node of the result does. -/
theorem C17_built_nodes_have_no_position (wide : Nat → Bool) (genname : String)
    (gox : GoxExpr) (hW : WellFormed gox) :
    ∃ (e : Expr) (node : GoxExpr), goxToVecty wide genname gox = some (e, node) ∧
      (∀ n ∈ nodes e,
        (∀ p ∈ ownPositions n, p = token.NoPos) ∨ FromInput gox n ∨
        (n = e ∧ ∃ fn lparen targs args ellipsis rparen,
          gox.TagName = Expr.CallExpr fn lparen targs ellipsis rparen ∧
          e = Expr.CallExpr fn lparen args ellipsis rparen ∧
          ownPositions n = ownPositions gox.TagName)) ∧
      ((∀ fn lparen targs ellipsis rparen,
          gox.TagName ≠ Expr.CallExpr fn lparen targs ellipsis rparen) →
        ∀ n ∈ nodes e, (∀ p ∈ ownPositions n, p = token.NoPos) ∨ FromInput gox n) ∧
      ((∀ m, FromInput gox m → ∀ p ∈ ownPositions m, p = token.NoPos) →
        ∀ n ∈ nodes e, ∀ p ∈ ownPositions n, p = token.NoPos) := by
  obtain ⟨e, node, hres, hprov⟩ := goxToVecty_provenance wide genname gox hW
  have hmain : ∀ n ∈ nodes e,
      (∀ p ∈ ownPositions n, p = token.NoPos) ∨ FromInput gox n ∨
      (n = e ∧ ∃ fn lparen targs args ellipsis rparen,
        gox.TagName = Expr.CallExpr fn lparen targs ellipsis rparen ∧
        e = Expr.CallExpr fn lparen args ellipsis rparen ∧
        ownPositions n = ownPositions gox.TagName) := by
    intro n hn
    rcases hprov n hn with h | h | ⟨h, fn, lparen, targs, args, ellipsis, rparen, hT, he⟩
    · exact Or.inl h.1
    · exact Or.inr (Or.inl h)
    · refine Or.inr (Or.inr ⟨h, fn, lparen, targs, args, ellipsis, rparen, hT, he, ?_⟩)
      rw [h, he, hT]
      rfl
  refine ⟨e, node, hres, hmain, ?_, ?_⟩
  · intro hno n hn
    rcases hmain n hn with h | h | ⟨_, fn, lparen, targs, _, ellipsis, rparen, hT, _⟩
    · exact Or.inl h
    · exact Or.inr h
    · exact absurd hT (hno _ _ _ _ _)
  · intro hin n hn p hp
    rcases hmain n hn with h | h | ⟨_, _, _, _, _, _, _, _, _, hown⟩
    · exact h p hp
    · exact hin n h p hp
    · rw [hown] at hp
      exact hin gox.TagName (Or.inl (root_mem_nodes _)) p hp

/-- C17, amended, at `<div id={v}>{x}</div>` with the tag at position 1, `v` at
position 9 and `x` at position 14: the result is
`g.Tag("div", g.Markup(g.Property("id", v)), g.Value({x}))`, and each of its
nodes either has no position or is a node of the input: of the tag, or one of
`v`, `{x}` and `x`. -/
theorem C17_built_nodes_have_no_position_witness :
    ∃ (node : GoxExpr),
      goxToVecty (fun _ => true) "g"
          ⟨Expr.Ident ⟨1, "div"⟩, [⟨some ⟨5, "id"⟩, Expr.Ident ⟨9, "v"⟩⟩],
            [Expr.GoExpr (Expr.Ident ⟨14, "x"⟩)]⟩
        = some (newCallExpr (newSelectorExpr "g" "Tag")
            [ Expr.BasicLit token.NoPos token.Token.STRING "\"div\"",
              newCallExpr (newSelectorExpr "g" "Markup")
                [ newCallExpr (newSelectorExpr "g" "Property")
                    [ Expr.BasicLit token.NoPos token.Token.STRING "\"id\"",
                      Expr.Ident ⟨9, "v"⟩ ] ],
              newCallExpr (newSelectorExpr "g" "Value")
                [Expr.GoExpr (Expr.Ident ⟨14, "x"⟩)] ], node) ∧
      ∀ n ∈ nodes (newCallExpr (newSelectorExpr "g" "Tag")
            [ Expr.BasicLit token.NoPos token.Token.STRING "\"div\"",
              newCallExpr (newSelectorExpr "g" "Markup")
                [ newCallExpr (newSelectorExpr "g" "Property")
                    [ Expr.BasicLit token.NoPos token.Token.STRING "\"id\"",
                      Expr.Ident ⟨9, "v"⟩ ] ],
              newCallExpr (newSelectorExpr "g" "Value")
                [Expr.GoExpr (Expr.Ident ⟨14, "x"⟩)] ]),
        (∀ p ∈ ownPositions n, p = token.NoPos) ∨
          n = Expr.Ident ⟨9, "v"⟩ ∨ n = Expr.GoExpr (Expr.Ident ⟨14, "x"⟩) ∨
          n = Expr.Ident ⟨14, "x"⟩ ∨ n = Expr.Ident ⟨1, "div"⟩ := by
  have hW : WellFormed
      ⟨Expr.Ident ⟨1, "div"⟩, [⟨some ⟨5, "id"⟩, Expr.Ident ⟨9, "v"⟩⟩],
        [Expr.GoExpr (Expr.Ident ⟨14, "x"⟩)]⟩ := by
    refine ⟨by simp, ?_⟩
    intro t ht
    simp only [Expr.Ident.injEq] at ht
    rw [← ht]
    decide
  obtain ⟨e, node, hres, _, hall, _⟩ := C17_built_nodes_have_no_position (fun _ => true) "g" _ hW
  have hev : goxToVecty (fun _ => true) "g"
      ⟨Expr.Ident ⟨1, "div"⟩, [⟨some ⟨5, "id"⟩, Expr.Ident ⟨9, "v"⟩⟩],
        [Expr.GoExpr (Expr.Ident ⟨14, "x"⟩)]⟩
      = some (newCallExpr (newSelectorExpr "g" "Tag")
          [ Expr.BasicLit token.NoPos token.Token.STRING "\"div\"",
            newCallExpr (newSelectorExpr "g" "Markup")
              [ newCallExpr (newSelectorExpr "g" "Property")
                  [ Expr.BasicLit token.NoPos token.Token.STRING "\"id\"",
                    Expr.Ident ⟨9, "v"⟩ ] ],
            newCallExpr (newSelectorExpr "g" "Value")
              [Expr.GoExpr (Expr.Ident ⟨14, "x"⟩)] ],
        ⟨Expr.Ident ⟨1, "div"⟩, [⟨some ⟨5, "id"⟩, Expr.Ident ⟨9, "v"⟩⟩],
          [Expr.GoExpr (Expr.Ident ⟨14, "x"⟩)]⟩) := rfl
  rw [hev] at hres
  simp only [Option.some.injEq, Prod.mk.injEq] at hres
  obtain ⟨he, hnode⟩ := hres
  refine ⟨node, by rw [hev, hnode], ?_⟩
  intro n hn
  rw [he] at hn
  rcases hall (by intro fn lparen targs ellipsis rparen h; cases h) n hn with h | h
  · exact Or.inl h
  · right
    simp only [FromInput, nodes, nodesList, List.map_cons, List.map_nil, List.append_nil,
      List.mem_cons, List.mem_singleton, List.not_mem_nil, or_false] at h
    rcases h with h | (h | h) | h
    · exact Or.inr (Or.inr (Or.inr h))
    · exact Or.inr (Or.inl h)
    · exact Or.inr (Or.inr (Or.inl h))
    · exact Or.inl h

/-! ## The two tables share no key -/

theorem mem_keys_of_mapGet (m : List (String × String)) (k v : String)
    (h : mapGet m k = some v) : k ∈ m.map Prod.fst := by
  by_contra hk
  rw [mapGet_of_not_mem_keys m k hk] at h
  exact Option.noConfusion h

set_option maxRecDepth 100000 in
/-- No handler name of `eventMap` is found in `attrMap`. -/
theorem eventMap_keys_not_in_attrMap : ∀ p ∈ eventMap, mapGet attrMap p.1 = none := by
  decide

theorem tables_disjoint (k : String) (h : k ∈ eventMap.map Prod.fst) :
    k ∉ attrMap.map Prod.fst := by
  obtain ⟨p, hp, rfl⟩ := List.mem_map.1 h
  intro hk
  obtain ⟨v, hv, _⟩ := mapGet_of_mem_keys attrMap p.1 hk
  rw [eventMap_keys_not_in_attrMap p hp] at hv
  exact Option.noConfusion hv

theorem mapPropsBodySwapped_eq (wide : Nat → Bool) (genname : String)
    (a : GoxAttrStmt) :
    mapPropsBodySwapped wide genname a = mapPropsBody wide genname a := by
  simp only [mapPropsBodySwapped, mapPropsBody]
  cases hl : (defaultRhs a).Lhs with
  | none => rfl
  | some lhs =>
    simp only []
    cases he : mapGet eventMap lhs.Name with
    | none => cases hp : mapGet attrMap lhs.Name <;> rfl
    | some v =>
      have hk := mem_keys_of_mapGet eventMap lhs.Name v he
      have hp := mapGet_of_not_mem_keys attrMap lhs.Name (tables_disjoint lhs.Name hk)
      simp only [hp]

/-- C18: no string is a key of both `eventMap` and `attrMap`, so the body of
the loop of `mapProps`, and with it `mapProps`, returns the same whether
`eventMap` or `attrMap` is consulted first. -/
theorem C18_tables_are_disjoint :
    (∀ k, k ∈ eventMap.map Prod.fst → k ∉ attrMap.map Prod.fst) ∧
    (∀ k, ¬ (k ∈ eventMap.map Prod.fst ∧ k ∈ attrMap.map Prod.fst)) ∧
    (∀ (wide : Nat → Bool) (genname : String) (a : GoxAttrStmt),
      mapPropsBodySwapped wide genname a = mapPropsBody wide genname a) ∧
    (∀ (wide : Nat → Bool) (genname : String) (attrs : List GoxAttrStmt),
      mapPropsSwapped wide genname attrs = mapProps wide genname attrs) := by
  refine ⟨tables_disjoint, fun k h => tables_disjoint k h.1 h.2, mapPropsBodySwapped_eq, ?_⟩
  intro wide genname attrs
  have hstep : mapPropsStepSwapped wide genname = mapPropsStep wide genname := by
    funext st attr
    simp only [mapPropsStepSwapped, mapPropsStep, mapPropsBodySwapped_eq]
  simp only [mapPropsSwapped, mapProps, hstep]

/-- C18 at the key `onClick` of `eventMap`: it is no key of `attrMap`. -/
theorem C18_tables_are_disjoint_witness :
    "onClick" ∈ eventMap.map Prod.fst ∧ "onClick" ∉ attrMap.map Prod.fst :=
  ⟨by decide, C18_tables_are_disjoint.1 "onClick" (by decide)⟩

/-- C19: on a call-expression tag the result does not depend on the
attributes: for two attribute lists that all have an `Lhs`, with the same tag
and children, `goxToVecty` returns the same expression, the tag's call with
`genname.Text("", children...)` appended when there are children.  Every node
of that argument is built by the pass or is a node of a child, and the
attributes are left behind with their values defaulted. -/
theorem C19_call_tag_ignores_attributes (wide : Nat → Bool) (genname : String)
    (fn : Expr) (lparen : token.Pos) (targs : List Expr) (ellipsis rparen : token.Pos)
    (X : List Expr) (A B : List GoxAttrStmt)
    (hA : ∀ a ∈ A, a.Lhs ≠ none) (hB : ∀ a ∈ B, a.Lhs ≠ none) :
    ∃ (e : Expr) (nodeA nodeB : GoxExpr),
      goxToVecty wide genname ⟨Expr.CallExpr fn lparen targs ellipsis rparen, A, X⟩
        = some (e, nodeA) ∧
      goxToVecty wide genname ⟨Expr.CallExpr fn lparen targs ellipsis rparen, B, X⟩
        = some (e, nodeB) ∧
      e = Expr.CallExpr fn lparen
        (targs ++ (if X.isEmpty then []
          else [newCallExpr (newSelectorExpr genname "Text")
            (Expr.BasicLit token.NoPos token.Token.STRING "\"\"" :: X)]))
        ellipsis rparen ∧
      (∀ n ∈ nodes (newCallExpr (newSelectorExpr genname "Text")
          (Expr.BasicLit token.NoPos token.Token.STRING "\"\"" :: X)),
        Synthesized genname n ∨ n ∈ nodesList X) ∧
      nodeA.Attrs = A.map defaultRhs ∧ nodeB.Attrs = B.map defaultRhs := by
  have hc : ∀ attrs, isComponent ⟨Expr.CallExpr fn lparen targs ellipsis rparen, attrs, X⟩
      = some true := fun _ => rfl
  have h1 := newComponent_call_eq genname
    ⟨Expr.CallExpr fn lparen targs ellipsis rparen, A, X⟩ fn lparen targs ellipsis rparen
    rfl hA
  have h2 := newComponent_call_eq genname
    ⟨Expr.CallExpr fn lparen targs ellipsis rparen, B, X⟩ fn lparen targs ellipsis rparen
    rfl hB
  rw [← goxToVecty_component wide genname _ (hc A)] at h1
  rw [← goxToVecty_component wide genname _ (hc B)] at h2
  exact ⟨_, _, _, h1, h2, rfl, nodes_bodyText genname X, rfl, rfl⟩

/-- C19 at `Factory(x)` with the child `hi`: with the attributes
`[id="a", hidden]` and with none the result is `Factory(x, g.Text("", hi))`. -/
theorem C19_call_tag_ignores_attributes_witness :
    ∃ (nodeA nodeB : GoxExpr),
      goxToVecty (fun _ => true) "g"
          ⟨Expr.CallExpr (Expr.Ident ⟨1, "Factory"⟩) 8 [Expr.Ident ⟨9, "x"⟩] 0 10,
            [⟨some ⟨12, "id"⟩, Expr.BasicLit 15 token.Token.STRING "\"a\""⟩,
              ⟨some ⟨19, "hidden"⟩, Expr.Nil⟩],
            [Expr.BareWordsExpr "hi"]⟩
        = some (Expr.CallExpr (Expr.Ident ⟨1, "Factory"⟩) 8
            [Expr.Ident ⟨9, "x"⟩,
              newCallExpr (newSelectorExpr "g" "Text")
                [Expr.BasicLit token.NoPos token.Token.STRING "\"\"",
                  Expr.BareWordsExpr "hi"]] 0 10, nodeA) ∧
      goxToVecty (fun _ => true) "g"
          ⟨Expr.CallExpr (Expr.Ident ⟨1, "Factory"⟩) 8 [Expr.Ident ⟨9, "x"⟩] 0 10,
            [], [Expr.BareWordsExpr "hi"]⟩
        = some (Expr.CallExpr (Expr.Ident ⟨1, "Factory"⟩) 8
            [Expr.Ident ⟨9, "x"⟩,
              newCallExpr (newSelectorExpr "g" "Text")
                [Expr.BasicLit token.NoPos token.Token.STRING "\"\"",
                  Expr.BareWordsExpr "hi"]] 0 10, nodeB) := by
  obtain ⟨e, nodeA, nodeB, h1, h2, he, _⟩ :=
    C19_call_tag_ignores_attributes (fun _ => true) "g" (Expr.Ident ⟨1, "Factory"⟩) 8
      [Expr.Ident ⟨9, "x"⟩] 0 10 [Expr.BareWordsExpr "hi"]
      [⟨some ⟨12, "id"⟩, Expr.BasicLit 15 token.Token.STRING "\"a\""⟩,
        ⟨some ⟨19, "hidden"⟩, Expr.Nil⟩]
      [] (by simp) (by simp)
  rw [he] at h1 h2
  exact ⟨nodeA, nodeB, h1, h2⟩

/-! ## The first byte of a name -/

theorem index_lt_256 (s : String) (i b : Nat) (h : go.index s i = some b) : b < 256 := by
  have hmem : b ∈ go.bytes s := by
    simp only [go.index] at h
    exact List.getElem?_mem h
  simp only [go.bytes, List.mem_flatMap, List.mem_map] at hmem
  obtain ⟨c, _, u, _, rfl⟩ := hmem
  exact UInt8.toNat_lt u

theorem isUpper_ascii (b : Nat) (h : b < 0x80) :
    unicode.IsUpper b = decide (0x41 ≤ b ∧ b ≤ 0x5A) := by
  by_cases h1 : 0x41 ≤ b ∧ b ≤ 0x5A
  · simp [unicode.IsUpper, h1]
  · have h2 : ¬ (0xC0 ≤ b) := by omega
    have h3 : ¬ (0xD8 ≤ b) := by omega
    simp only [unicode.IsUpper, h2, h3, decide_False, Bool.false_and, Bool.or_false, h1]
    simpa using h1

/-- C20: the classification of an identifier tag reads the first byte `b` of
the name, a number below 256: `isComponent` is `unicode.IsUpper(rune(b))`, the
node goes to `newComponent` and becomes a `genname.NewComponent` call exactly
when that holds, and becomes a `genname.Tag` call otherwise; two names with the
same first byte are classified alike.  For a name that starts with an ASCII
character `c`, `b` is `c` and the test is `c` in `A`..`Z`.  The name `é` has the
bytes `C3 A9`; the lead byte read as U+00C3 is upper-case, and the tag is a
Component although `é` is lower-case. -/
theorem C20_classification_reads_first_byte (wide : Nat → Bool) (genname : String)
    (gox : GoxExpr) (t : Ident) (b : Nat) (hT : gox.TagName = Expr.Ident t)
    (hb : go.index t.Name 0 = some b) (hA : ∀ a ∈ gox.Attrs, a.Lhs ≠ none) :
    b < 256 ∧
    isComponent gox = some (unicode.IsUpper b) ∧
    (unicode.IsUpper b = true →
      goxToVecty wide genname gox = newComponent genname gox ∧
      ∃ (elts : List Expr) (node : GoxExpr), goxToVecty wide genname gox
        = some (newCallExpr (newSelectorExpr genname "NewComponent")
            [Expr.UnaryExpr token.NoPos token.Token.AND
              (Expr.CompositeLit (Expr.Ident t) token.NoPos elts token.NoPos)], node)) ∧
    (unicode.IsUpper b = false →
      ∃ (args : List Expr) (node : GoxExpr), goxToVecty wide genname gox
        = some (newCallExpr (newSelectorExpr genname "Tag") args, node)) ∧
    (∀ (gox2 : GoxExpr) (t2 : Ident), gox2.TagName = Expr.Ident t2 →
      go.index t2.Name 0 = some b → isComponent gox2 = isComponent gox) ∧
    (∀ c, t.Name.data.head? = some c → c.toNat < 0x80 →
      b = c.toNat ∧ unicode.IsUpper b = asciiUpper c) ∧
    ("é".data.head? = some 'é' ∧ unicode.IsUpper ('é').toNat = false ∧
      go.bytes "é" = [0xC3, 0xA9] ∧ unicode.IsUpper 0xC3 = true ∧
      ∀ (p : token.Pos) (attrs : List GoxAttrStmt) (X : List Expr),
        isComponent ⟨Expr.Ident ⟨p, "é"⟩, attrs, X⟩ = some true) := by
  have hc := isComponent_ident gox t b hT hb
  refine ⟨index_lt_256 t.Name 0 b hb, hc, ?_, ?_, ?_, ?_, ?_⟩
  · intro hU
    rw [hU] at hc
    have hres := newComponent_other_eq genname gox (by simp [hT]) hA
    rw [hT] at hres
    rw [goxToVecty_component wide genname gox hc]
    exact ⟨rfl, _, _, hres⟩
  · intro hU
    exact ⟨_, _, goxToVecty_element_eq wide genname gox t b hT hb hU hA⟩
  · intro gox2 t2 hT2 hb2
    rw [hc, isComponent_ident gox2 t2 b hT2 hb2]
  · intro c hhead hlt
    have hi := index_zero_ascii t.Name c hhead hlt
    rw [hb] at hi
    simp only [Option.some.injEq] at hi
    refine ⟨hi, ?_⟩
    rw [isUpper_ascii b (by omega), hi]
    simp [asciiUpper, Bool.decide_and]
  · refine ⟨by decide, by decide, by decide, by decide, ?_⟩
    intro p attrs X
    exact isComponent_ident _ ⟨p, "é"⟩ 0xC3 rfl (show go.index "é" 0 = some 0xC3 by decide)

/-- C20 at the tag `Button`: the first byte is `B`, and the node becomes a
`g.NewComponent` call. -/
theorem C20_classification_reads_first_byte_witness :
    isComponent ⟨Expr.Ident ⟨1, "Button"⟩, [], []⟩ = some true ∧
    goxToVecty (fun _ => true) "g" ⟨Expr.Ident ⟨1, "Button"⟩, [], []⟩
      = newComponent "g" ⟨Expr.Ident ⟨1, "Button"⟩, [], []⟩ := by
  obtain ⟨_, hc, hU, _⟩ :=
    C20_classification_reads_first_byte (fun _ => true) "g"
      ⟨Expr.Ident ⟨1, "Button"⟩, [], []⟩ ⟨1, "Button"⟩ 0x42 rfl (by decide) (by simp)
  exact ⟨hc, (hU (by decide)).1⟩

end printer
